import Mathlib

/-!
Verification development for the atlas crawler's URL handling, seed
resolution, crawl-state accumulation and hierarchy building.

The TypeScript sources are embedded shallowly: JavaScript strings become
`List Char` (wrapped in `String` at function boundaries), the WHATWG `URL`
parser is modelled by `parseChars` for the common
`scheme://host[:port][/path][?query][#fragment]` shape (ASCII, no
percent-encoding, no userinfo, no IPv6 hosts), and the crawlee scheduler is
modelled as an explicit event-driven state machine.
-/

/-- Lowercase mapping for ASCII letters, modelling `String.prototype.toLowerCase`
on the ASCII range (hosts, schemes and patterns handled by the crawler are ASCII). -/
def charLower : Char → Char
  | 'A' => 'a' | 'B' => 'b' | 'C' => 'c' | 'D' => 'd' | 'E' => 'e' | 'F' => 'f'
  | 'G' => 'g' | 'H' => 'h' | 'I' => 'i' | 'J' => 'j' | 'K' => 'k' | 'L' => 'l'
  | 'M' => 'm' | 'N' => 'n' | 'O' => 'o' | 'P' => 'p' | 'Q' => 'q' | 'R' => 'r'
  | 'S' => 's' | 'T' => 't' | 'U' => 'u' | 'V' => 'v' | 'W' => 'w' | 'X' => 'x'
  | 'Y' => 'y' | 'Z' => 'z'
  | c => c

def lowerAscii : List Char :=
  ['a', 'b', 'c', 'd', 'e', 'f', 'g', 'h', 'i', 'j', 'k', 'l', 'm',
   'n', 'o', 'p', 'q', 'r', 's', 't', 'u', 'v', 'w', 'x', 'y', 'z']

theorem charLower_spec (c : Char) : charLower c = c ∨ charLower c ∈ lowerAscii := by
  unfold charLower
  split <;> simp_all [lowerAscii]

theorem charLower_of_mem_lowerAscii {c : Char} (h : c ∈ lowerAscii) :
    charLower c = c := by
  fin_cases h <;> rfl

theorem charLower_idem (c : Char) : charLower (charLower c) = charLower c := by
  rcases charLower_spec c with h | h
  · rw [h, h]
  · rw [charLower_of_mem_lowerAscii h]

def lowerList (l : List Char) : List Char := l.map charLower

theorem lowerList_idem (l : List Char) : lowerList (lowerList l) = lowerList l := by
  induction l with
  | nil => rfl
  | cons c cs ih =>
    simp only [lowerList, List.map_cons] at *
    rw [charLower_idem]
    exact congrArg _ (by simpa [lowerList] using ih)

theorem lowerList_of_stable {l : List Char} (h : ∀ c ∈ l, charLower c = c) :
    lowerList l = l := by
  induction l with
  | nil => rfl
  | cons c cs ih =>
    simp only [lowerList, List.map_cons]
    rw [h c (by simp)]
    have := ih (fun d hd => h d (by simp [hd]))
    simp only [lowerList] at this
    rw [this]

def isAsciiAlpha (c : Char) : Bool := ('a' ≤ c && c ≤ 'z') || ('A' ≤ c && c ≤ 'Z')

def isDigitCh (c : Char) : Bool := '0' ≤ c && c ≤ '9'

def isHexCh (c : Char) : Bool :=
  isDigitCh c || ('a' ≤ c && c ≤ 'f') || ('A' ≤ c && c ≤ 'F')

theorem isAsciiAlpha_charLower {c : Char} (h : isAsciiAlpha c = true) :
    isAsciiAlpha (charLower c) = true := by
  rcases charLower_spec c with h' | h'
  · rwa [h']
  · generalize charLower c = d at h'
    fin_cases h' <;> rfl

theorem charLower_ne_of_not_lower {c d : Char} (hd : d ∉ lowerAscii)
    (hcd : c ≠ d) : charLower c ≠ d := by
  rcases charLower_spec c with h | h
  · rwa [h]
  · intro he; exact hd (he ▸ h)

/-- Value of a decimal digit character. -/
def digitVal (c : Char) : Nat := c.toNat - '0'.toNat

def digitsVal (cs : List Char) : Nat := cs.foldl (fun a c => a * 10 + digitVal c) 0

def digitCh : Nat → Char
  | 0 => '0' | 1 => '1' | 2 => '2' | 3 => '3' | 4 => '4'
  | 5 => '5' | 6 => '6' | 7 => '7' | 8 => '8' | _ => '9'

/-- Fuelled decimal printer (fuel bounds the number of digits, so the
definition is structural and evaluates by kernel reduction). -/
def natDigitsAux : Nat → Nat → List Char
  | 0, _ => []
  | fuel + 1, n =>
    if n < 10 then [digitCh n] else natDigitsAux fuel (n / 10) ++ [digitCh (n % 10)]

/-- Decimal digits of `n`, most significant first, as JavaScript serializes ports. -/
def natDigits (n : Nat) : List Char := natDigitsAux (n + 1) n

theorem digitsVal_append_single (cs : List Char) (c : Char) :
    digitsVal (cs ++ [c]) = digitsVal cs * 10 + digitVal c := by
  simp [digitsVal, List.foldl_append]

theorem digitVal_digitCh {n : Nat} (h : n < 10) : digitVal (digitCh n) = n := by
  interval_cases n <;> rfl

theorem isDigitCh_digitCh {n : Nat} (h : n < 10) : isDigitCh (digitCh n) = true := by
  interval_cases n <;> rfl

theorem natDigitsAux_spec : ∀ fuel n, n < fuel →
    digitsVal (natDigitsAux fuel n) = n ∧
    natDigitsAux fuel n ≠ [] ∧
    (∀ c ∈ natDigitsAux fuel n, isDigitCh c = true) := by
  intro fuel
  induction fuel with
  | zero => intro n h; omega
  | succ f ih =>
    intro n h
    by_cases h10 : n < 10
    · refine ⟨?_, by simp [natDigitsAux, h10], ?_⟩
      · simp [natDigitsAux, h10, digitsVal, digitVal_digitCh h10]
      · simp only [natDigitsAux, if_pos h10, List.mem_singleton]
        rintro c rfl
        exact isDigitCh_digitCh h10
    · have hdiv : n / 10 < f := by omega
      obtain ⟨h1, h2, h3⟩ := ih (n / 10) hdiv
      have hmod : n % 10 < 10 := Nat.mod_lt _ (by omega)
      refine ⟨?_, by simp [natDigitsAux, h10], ?_⟩
      · simp only [natDigitsAux, if_neg h10]
        rw [digitsVal_append_single, h1, digitVal_digitCh hmod]
        omega
      · simp only [natDigitsAux, if_neg h10, List.mem_append, List.mem_singleton]
        rintro c (hc | rfl)
        · exact h3 c hc
        · exact isDigitCh_digitCh hmod

theorem digitsVal_natDigits (n : Nat) : digitsVal (natDigits n) = n :=
  (natDigitsAux_spec (n + 1) n (by omega)).1

theorem natDigits_ne_nil (n : Nat) : natDigits n ≠ [] :=
  (natDigitsAux_spec (n + 1) n (by omega)).2.1

theorem natDigits_all_digits (n : Nat) : ∀ c ∈ natDigits n, isDigitCh c = true :=
  (natDigitsAux_spec (n + 1) n (by omega)).2.2

/-- Boolean prefix test on character lists. -/
def listStartsWith : List Char → List Char → Bool
  | _, [] => true
  | [], _ :: _ => false
  | c :: cs, d :: ds => c = d && listStartsWith cs ds

def listEndsWith (l suffix : List Char) : Bool :=
  listStartsWith l.reverse suffix.reverse

/-- Boolean contiguous-substring test, modelling `String.prototype.includes`. -/
def listContainsSub (hay needle : List Char) : Bool :=
  listStartsWith hay needle ||
    match hay with
    | [] => false
    | _ :: t => listContainsSub t needle

theorem listStartsWith_nil (l : List Char) : listStartsWith l [] = true := by
  cases l <;> rfl

theorem listContainsSub_nil (hay : List Char) : listContainsSub hay [] = true := by
  cases hay <;> simp [listContainsSub, listStartsWith_nil]

/-- Split a character list on a separator, modelling `String.prototype.split`
with a single-character separator. -/
def splitChar (sep : Char) : List Char → List (List Char)
  | [] => [[]]
  | c :: cs =>
    match splitChar sep cs with
    | [] => [[c]]
    | h :: t => if c = sep then [] :: h :: t else (c :: h) :: t

/-! ### Model of the WHATWG URL parser

`parseChars` models `new URL(...)` for absolute URLs of the shape
`scheme://host[:port][/path][?query][#fragment]`, reproducing the parse-time
normalizations relevant to the crawler: scheme and host are lowercased, a
default port (80 for http, 443 for https) is dropped, a missing path becomes
`/`. Userinfo, IPv6 hosts, percent-encoding, dot-segment removal and
backslash folding are outside the model. -/

structure UrlParts where
  scheme : List Char
  host : List Char
  port : Option Nat
  path : List Char
  query : List Char
  frag : List Char
deriving DecidableEq

def isDefaultPort (scheme : List Char) (p : Nat) : Bool :=
  (scheme = "http".toList && p = 80) || (scheme = "https".toList && p = 443)

def hostForbidden (c : Char) : Bool :=
  c = '@' || c = '[' || c = ']' || c = '\\' || c = ' '

def parseAuthority (scheme auth : List Char) : Option (List Char × Option Nat) :=
  let host := auth.takeWhile (fun c => c ≠ ':')
  let rest := auth.dropWhile (fun c => c ≠ ':')
  if host = [] then none
  else if host.any hostForbidden then none
  else
    let host := lowerList host
    match rest with
    | [] => some (host, none)
    | _ :: portCs =>
      if portCs = [] then some (host, none)
      else if portCs.all isDigitCh then
        let p := digitsVal portCs
        if p < 65536 then
          if isDefaultPort scheme p then some (host, none) else some (host, some p)
        else none
      else none

def authEnd (c : Char) : Bool := c = '/' || c = '?' || c = '#'

def pathEnd (c : Char) : Bool := c = '?' || c = '#'

def parsePathPart (scheme host : List Char) (port : Option Nat)
    (pathRaw rest3 : List Char) : Option UrlParts :=
  let path := if pathRaw = [] then ['/'] else pathRaw
  match rest3 with
  | '?' :: t =>
    some ⟨scheme, host, port, path, t.takeWhile (fun c => c ≠ '#'),
          (match t.dropWhile (fun c => c ≠ '#') with | _ :: f => f | [] => [])⟩
  | '#' :: f => some ⟨scheme, host, port, path, [], f⟩
  | _ => some ⟨scheme, host, port, path, [], []⟩

def parseWithAuth (scheme auth rest2 : List Char) : Option UrlParts :=
  match parseAuthority scheme auth with
  | none => none
  | some (host, port) =>
    parsePathPart scheme host port
      (rest2.takeWhile (fun c => !pathEnd c)) (rest2.dropWhile (fun c => !pathEnd c))

def parseAfterScheme (schemeRaw rest0 : List Char) : Option UrlParts :=
  match rest0 with
  | ':' :: '/' :: '/' :: rest =>
    if schemeRaw = [] || !schemeRaw.all isAsciiAlpha then none
    else
      parseWithAuth (lowerList schemeRaw)
        (rest.takeWhile (fun c => !authEnd c)) (rest.dropWhile (fun c => !authEnd c))
  | _ => none

def parseChars (cs : List Char) : Option UrlParts :=
  parseAfterScheme (cs.takeWhile (fun c => c ≠ ':')) (cs.dropWhile (fun c => c ≠ ':'))

def portPartOf : Option Nat → List Char
  | none => []
  | some p => ':' :: natDigits p

def serializeChars (u : UrlParts) : List Char :=
  u.scheme ++ ':' :: '/' :: '/' :: u.host
    ++ portPartOf u.port
    ++ u.path
    ++ (if u.query = [] then [] else '?' :: u.query)
    ++ (if u.frag = [] then [] else '#' :: u.frag)

/-- Well-formedness of parsed URL structures: exactly the invariants that
`parseChars` establishes, and that make serialization parse back. -/
structure Wf (u : UrlParts) : Prop where
  scheme_ne : u.scheme ≠ []
  scheme_alpha : ∀ c ∈ u.scheme, isAsciiAlpha c = true ∧ charLower c = c
  host_ne : u.host ≠ []
  host_ok : ∀ c ∈ u.host,
    c ≠ ':' ∧ authEnd c = false ∧ hostForbidden c = false ∧ charLower c = c
  port_ok : ∀ p, u.port = some p → p < 65536 ∧ isDefaultPort u.scheme p = false
  path_slash : ∃ rest, u.path = '/' :: rest
  path_ok : ∀ c ∈ u.path, pathEnd c = false
  query_ok : ∀ c ∈ u.query, c ≠ '#'

theorem takeWhile_append_cons {α : Type} {p : α → Bool} {l : List α} {c : α}
    (r : List α) (hl : ∀ x ∈ l, p x = true) (hc : p c = false) :
    (l ++ c :: r).takeWhile p = l ∧ (l ++ c :: r).dropWhile p = c :: r := by
  induction l with
  | nil => simp [List.takeWhile, List.dropWhile, hc]
  | cons a l ih =>
    have ha : p a = true := hl a (by simp)
    obtain ⟨h1, h2⟩ := ih (fun x hx => hl x (by simp [hx]))
    simp [List.takeWhile, List.dropWhile, ha, h1, h2]

theorem takeWhile_all {α : Type} {p : α → Bool} {l : List α}
    (hl : ∀ x ∈ l, p x = true) :
    l.takeWhile p = l ∧ l.dropWhile p = [] := by
  induction l with
  | nil => simp
  | cons a l ih =>
    have ha : p a = true := hl a (by simp)
    obtain ⟨h1, h2⟩ := ih (fun x hx => hl x (by simp [hx]))
    simp [List.takeWhile, List.dropWhile, ha, h1, h2]

theorem dropWhile_head_false {α : Type} {p : α → Bool} {c : α} {t : List α} :
    ∀ {l : List α}, l.dropWhile p = c :: t → p c = false := by
  intro l
  induction l with
  | nil => intro h; simp at h
  | cons a l ih =>
    intro h
    rw [List.dropWhile_cons] at h
    by_cases ha : p a = true
    · exact ih (by simpa [ha] using h)
    · simp only [ha, if_neg] at h
      obtain ⟨rfl, -⟩ := List.cons.inj (by simpa [ha] using h)
      simpa using ha

theorem isAsciiAlpha_ne_colon {c : Char} (h : isAsciiAlpha c = true) : c ≠ ':' := by
  rintro rfl; exact absurd h (by decide)

theorem isDigitCh_facts {c : Char} (h : isDigitCh c = true) :
    c ≠ ':' ∧ authEnd c = false ∧ pathEnd c = false := by
  simp only [isDigitCh, Bool.and_eq_true, decide_eq_true_eq] at h
  refine ⟨?_, ?_, ?_⟩
  · rintro rfl; exact absurd h.2 (by decide)
  · simp only [authEnd, Bool.or_eq_false_iff, decide_eq_false_iff_not]
    refine ⟨⟨?_, ?_⟩, ?_⟩ <;> rintro rfl <;> [exact absurd h.1 (by decide);
      exact absurd h.2 (by decide); exact absurd h.1 (by decide)]
  · simp only [pathEnd, Bool.or_eq_false_iff, decide_eq_false_iff_not]
    constructor <;> rintro rfl <;> [exact absurd h.2 (by decide); exact absurd h.1 (by decide)]

theorem authEnd_eq_false_iff {c : Char} :
    authEnd c = false ↔ c ≠ '/' ∧ c ≠ '?' ∧ c ≠ '#' := by
  simp [authEnd, and_assoc]

theorem pathEnd_eq_false_iff {c : Char} :
    pathEnd c = false ↔ c ≠ '?' ∧ c ≠ '#' := by
  simp [pathEnd]

theorem hostForbidden_eq_false_iff {c : Char} :
    hostForbidden c = false ↔
      c ≠ '@' ∧ c ≠ '[' ∧ c ≠ ']' ∧ c ≠ '\\' ∧ c ≠ ' ' := by
  simp [hostForbidden, and_assoc]

/-- Serialization of a well-formed URL structure parses back to exactly
that structure: the model parser and printer form a partial inverse pair. -/
theorem parse_serialize {u : UrlParts} (h : Wf u) :
    parseChars (serializeChars u) = some u := by
  obtain ⟨scheme, host, port, path, query, frag⟩ := u
  obtain ⟨hsne, hsal, hhne, hhok, hpok, ⟨pr, hpsl⟩, hpath, hquery⟩ := h
  simp only at hsne hsal hhne hhok hpok hpsl hpath hquery
  set qPart : List Char := (if query = [] then [] else '?' :: query) with hqPart
  set fPart : List Char := (if frag = [] then [] else '#' :: frag) with hfPart
  have hser : serializeChars ⟨scheme, host, port, path, query, frag⟩ =
      scheme ++ ':' :: '/' :: '/' ::
        (host ++ (portPartOf port ++ (path ++ (qPart ++ fPart)))) := by
    simp [serializeChars]
  have hs1 := takeWhile_append_cons (p := fun c => decide (c ≠ ':'))
    ('/' :: '/' :: (host ++ (portPartOf port ++ (path ++ (qPart ++ fPart)))))
    (l := scheme) (c := ':')
    (fun x hx => by simpa using isAsciiAlpha_ne_colon (hsal x hx).1)
    (by simp)
  rw [hser, parseChars, hs1.1, hs1.2]
  simp only [parseAfterScheme]
  have hall : scheme.all isAsciiAlpha = true := by
    simp only [List.all_eq_true]
    exact fun x hx => (hsal x hx).1
  rw [if_neg (by simp [hsne, hall])]
  rw [lowerList_of_stable (fun c hc => (hsal c hc).2)]
  -- authority span
  have hdigitsAuth : ∀ c ∈ portPartOf port, (!authEnd c) = true := by
    intro c hc
    cases port with
    | none => simp [portPartOf] at hc
    | some p =>
      simp only [portPartOf, List.mem_cons] at hc
      rcases hc with rfl | hc
      · simp [authEnd]
      · simpa using (isDigitCh_facts (natDigits_all_digits p c hc)).2.1
  have hassoc : host ++ (portPartOf port ++ (path ++ (qPart ++ fPart))) =
      (host ++ portPartOf port) ++ '/' :: (pr ++ (qPart ++ fPart)) := by
    rw [hpsl]; simp
  have hs2 := takeWhile_append_cons (p := fun c => !authEnd c)
    (pr ++ (qPart ++ fPart)) (l := host ++ portPartOf port) (c := '/')
    (by
      intro x hx
      rcases List.mem_append.mp hx with hx | hx
      · simpa using (hhok x hx).2.1
      · exact hdigitsAuth x hx)
    (by simp [authEnd])
  rw [hassoc, hs2.1, hs2.2]
  -- authority parse
  have hs4 : (host ++ portPartOf port).takeWhile (fun c => decide (c ≠ ':')) = host ∧
      (host ++ portPartOf port).dropWhile (fun c => decide (c ≠ ':')) = portPartOf port := by
    cases port with
    | none =>
      simp only [portPartOf, List.append_nil]
      exact takeWhile_all (fun x hx => by simpa using (hhok x hx).1)
    | some p =>
      simp only [portPartOf]
      exact takeWhile_append_cons (natDigits p)
        (fun x hx => by simpa using (hhok x hx).1) (by simp)
  have hauth : parseAuthority scheme (host ++ portPartOf port) = some (host, port) := by
    simp only [parseAuthority, hs4.1, hs4.2]
    rw [if_neg (by simpa using hhne)]
    rw [if_neg (by
      simp only [Bool.not_eq_true, List.any_eq_false]
      exact fun x hx => by simp [(hhok x hx).2.2.1])]
    rw [lowerList_of_stable (fun c hc => (hhok c hc).2.2.2)]
    cases port with
    | none => rfl
    | some p =>
      simp only [portPartOf]
      have hne := natDigits_ne_nil p
      have hall2 : (natDigits p).all isDigitCh = true := by
        simp only [List.all_eq_true]
        exact natDigits_all_digits p
      obtain ⟨hlt, hdef⟩ := hpok p rfl
      simp [hne, hall2, digitsVal_natDigits, hlt, hdef]
  rw [parseWithAuth, hauth]
  -- path span
  have hrest2 : ('/' : Char) :: (pr ++ (qPart ++ fPart)) = path ++ (qPart ++ fPart) := by
    rw [hpsl]; simp
  rw [hrest2]
  have hpathne : ¬ path = [] := by rw [hpsl]; simp
  by_cases hq : query = []
  · by_cases hf : frag = []
    · simp only [hqPart, hfPart, hq, hf, if_pos, List.append_nil]
      have hw := takeWhile_all (p := fun c => !pathEnd c) (l := path)
        (fun x hx => by simpa using hpath x hx)
      rw [hw.1, hw.2]
      simp [parsePathPart, hpathne, hq, hf]
    · simp only [hqPart, hfPart, hq, if_pos, if_neg hf, List.nil_append]
      have hw := takeWhile_append_cons (p := fun c => !pathEnd c) frag
        (l := path) (c := '#')
        (fun x hx => by simpa using hpath x hx) (by simp [pathEnd])
      rw [hw.1, hw.2]
      simp [parsePathPart, hpathne, hq]
  · have hw := takeWhile_append_cons (p := fun c => !pathEnd c)
      (query ++ fPart) (l := path) (c := '?')
      (fun x hx => by simpa using hpath x hx) (by simp [pathEnd])
    have hassoc2 : path ++ (qPart ++ fPart) = path ++ '?' :: (query ++ fPart) := by
      rw [hqPart, if_neg hq]; simp
    rw [hassoc2, hw.1, hw.2]
    by_cases hf : frag = []
    · have hwq := takeWhile_all (p := fun c => decide (c ≠ '#')) (l := query)
        (fun x hx => by simpa using hquery x hx)
      simp only [hfPart, hf, if_pos, List.append_nil]
      simp only [parsePathPart]
      rw [hwq.1, hwq.2]
      simp [hpathne, hf]
    · have hwq := takeWhile_append_cons (p := fun c => decide (c ≠ '#')) frag
        (l := query) (c := '#')
        (fun x hx => by simpa using hquery x hx) (by simp)
      simp only [hfPart, if_neg hf]
      simp only [parsePathPart]
      rw [hwq.1, hwq.2]
      simp [hpathne]

theorem mem_of_mem_takeWhile' {α : Type} {p : α → Bool} {a : α} :
    ∀ {l : List α}, a ∈ l.takeWhile p → a ∈ l := by
  intro l
  induction l with
  | nil => intro h; simp at h
  | cons b t ih =>
    intro h
    rw [List.takeWhile_cons] at h
    by_cases hb : p b = true
    · simp only [hb, if_pos, List.mem_cons] at h
      rcases h with rfl | h
      · simp
      · simp [ih h]
    · simp [hb] at h

theorem charLower_host_ok {c : Char} (h1 : c ≠ ':') (h2 : authEnd c = false)
    (h3 : hostForbidden c = false) :
    charLower c ≠ ':' ∧ authEnd (charLower c) = false ∧
      hostForbidden (charLower c) = false ∧ charLower (charLower c) = charLower c := by
  obtain ⟨ha, hb, hc'⟩ := authEnd_eq_false_iff.mp h2
  obtain ⟨f1, f2, f3, f4, f5⟩ := hostForbidden_eq_false_iff.mp h3
  refine ⟨charLower_ne_of_not_lower (by decide) h1, ?_, ?_, charLower_idem c⟩
  · exact authEnd_eq_false_iff.mpr ⟨charLower_ne_of_not_lower (by decide) ha,
      charLower_ne_of_not_lower (by decide) hb, charLower_ne_of_not_lower (by decide) hc'⟩
  · exact hostForbidden_eq_false_iff.mpr ⟨charLower_ne_of_not_lower (by decide) f1,
      charLower_ne_of_not_lower (by decide) f2, charLower_ne_of_not_lower (by decide) f3,
      charLower_ne_of_not_lower (by decide) f4, charLower_ne_of_not_lower (by decide) f5⟩

theorem parseAuthority_wf {scheme auth host : List Char} {port : Option Nat}
    (hac : ∀ c ∈ auth, authEnd c = false)
    (h : parseAuthority scheme auth = some (host, port)) :
    host ≠ [] ∧
    (∀ c ∈ host, c ≠ ':' ∧ authEnd c = false ∧ hostForbidden c = false ∧ charLower c = c) ∧
    (∀ p, port = some p → p < 65536 ∧ isDefaultPort scheme p = false) := by
  unfold parseAuthority at h
  by_cases hne : auth.takeWhile (fun c => decide (c ≠ ':')) = []
  · rw [if_pos hne] at h
    exact absurd h (by simp)
  rw [if_neg hne] at h
  by_cases hforb : (auth.takeWhile (fun c => decide (c ≠ ':'))).any hostForbidden = true
  · rw [if_pos hforb] at h
    exact absurd h (by simp)
  rw [if_neg hforb] at h
  have hhostfacts : ∀ c ∈ lowerList (auth.takeWhile (fun c => decide (c ≠ ':'))),
      c ≠ ':' ∧ authEnd c = false ∧ hostForbidden c = false ∧ charLower c = c := by
    intro c hc
    simp only [lowerList, List.mem_map] at hc
    obtain ⟨c₀, hc₀, rfl⟩ := hc
    have hne' : c₀ ≠ ':' := by simpa using List.mem_takeWhile_imp hc₀
    have hauth' : authEnd c₀ = false := hac c₀ (mem_of_mem_takeWhile' hc₀)
    have hforb' : hostForbidden c₀ = false := by
      rw [Bool.not_eq_true, List.any_eq_false] at hforb
      simpa using hforb c₀ hc₀
    exact charLower_host_ok hne' hauth' hforb'
  have hhostne : lowerList (auth.takeWhile (fun c => decide (c ≠ ':'))) ≠ [] := by
    simpa [lowerList] using hne
  rcases hrest : auth.dropWhile (fun c => decide (c ≠ ':')) with _ | ⟨c0, portCs⟩
  · rw [hrest] at h
    dsimp only at h
    obtain ⟨h1, h2⟩ := Prod.ext_iff.mp (Option.some.inj h)
    simp only at h1 h2
    subst h1; subst h2
    exact ⟨hhostne, hhostfacts, by simp⟩
  · rw [hrest] at h
    dsimp only at h
    by_cases hpempty : portCs = []
    · rw [if_pos hpempty] at h
      obtain ⟨h1, h2⟩ := Prod.ext_iff.mp (Option.some.inj h)
      simp only at h1 h2
      subst h1; subst h2
      exact ⟨hhostne, hhostfacts, by simp⟩
    · rw [if_neg hpempty] at h
      by_cases hdig : portCs.all isDigitCh = true
      · rw [if_pos hdig] at h
        by_cases hlt : digitsVal portCs < 65536
        · rw [if_pos hlt] at h
          by_cases hdef : isDefaultPort scheme (digitsVal portCs) = true
          · rw [if_pos hdef] at h
            obtain ⟨h1, h2⟩ := Prod.ext_iff.mp (Option.some.inj h)
            simp only at h1 h2
            subst h1; subst h2
            exact ⟨hhostne, hhostfacts, by simp⟩
          · rw [if_neg hdef] at h
            obtain ⟨h1, h2⟩ := Prod.ext_iff.mp (Option.some.inj h)
            simp only at h1 h2
            subst h1; subst h2
            refine ⟨hhostne, hhostfacts, ?_⟩
            rintro p hp
            obtain rfl : digitsVal portCs = p := by simpa using hp
            exact ⟨hlt, by simpa using hdef⟩
        · rw [if_neg hlt] at h
          exact absurd h (by simp)
      · rw [if_neg hdig] at h
        exact absurd h (by simp)

/-- Every structure produced by the model parser is well-formed. -/
theorem parse_wf : ∀ {cs : List Char} {u : UrlParts}, parseChars cs = some u → Wf u := by
  intro cs u h
  rw [parseChars] at h
  unfold parseAfterScheme at h
  set srw := cs.takeWhile (fun c => decide (c ≠ ':')) with hsrw
  split at h
  case _ rest heqr =>
    by_cases hcond : (srw = [] || !srw.all isAsciiAlpha) = true
    · rw [if_pos hcond] at h
      exact absurd h (by simp)
    · rw [if_neg hcond] at h
      simp only [Bool.or_eq_true, decide_eq_true_eq] at hcond
      push_neg at hcond
      obtain ⟨hsne, hallne⟩ := hcond
      have hall : srw.all isAsciiAlpha = true := by
        cases hv : srw.all isAsciiAlpha
        · rw [hv] at hallne; simp at hallne
        · rfl
      rw [List.all_eq_true] at hall
      have hschemene : lowerList srw ≠ [] := by simpa [lowerList] using hsne
      have hschemeal : ∀ c ∈ lowerList srw, isAsciiAlpha c = true ∧ charLower c = c := by
        intro c hc
        simp only [lowerList, List.mem_map] at hc
        obtain ⟨c₀, hc₀, rfl⟩ := hc
        exact ⟨isAsciiAlpha_charLower (hall c₀ hc₀), charLower_idem c₀⟩
      unfold parseWithAuth at h
      split at h
      case _ => exact absurd h (by simp)
      case _ host port hauth =>
        obtain ⟨hhne, hhok, hpok⟩ := parseAuthority_wf
          (fun c hc => by simpa using List.mem_takeWhile_imp hc) hauth
        set rest2 := rest.dropWhile (fun c => !authEnd c) with hrest2
        set pathRaw := rest2.takeWhile (fun c => !pathEnd c) with hpathRaw
        have hpathok : ∀ c ∈ (if pathRaw = [] then ['/'] else pathRaw), pathEnd c = false := by
          intro c hc
          by_cases hpe : pathRaw = []
          · simp only [hpe, if_pos, List.mem_singleton] at hc
            subst hc; decide
          · rw [if_neg hpe] at hc
            simpa using List.mem_takeWhile_imp hc
        have hpathsl : ∃ r, (if pathRaw = [] then ['/'] else pathRaw) = '/' :: r := by
          by_cases hpe : pathRaw = []
          · exact ⟨[], by simp [hpe]⟩
          · rw [if_neg hpe]
            rcases hr2v : rest2 with _ | ⟨c, t⟩
            · rw [hpathRaw, hr2v] at hpe
              simp at hpe
            · have hdw : rest.dropWhile (fun c => !authEnd c) = c :: t := by
                rw [← hrest2]; exact hr2v
              have hce := dropWhile_head_false (p := fun c => !authEnd c) hdw
              have hauthc : authEnd c = true := by simpa using hce
              have hpec : pathEnd c = false := by
                by_contra hpc
                rw [Bool.not_eq_false] at hpc
                rw [hpathRaw, hr2v, List.takeWhile_cons] at hpe
                simp [hpc] at hpe
              have hcslash : c = '/' := by
                simp only [authEnd, Bool.or_eq_true, decide_eq_true_eq] at hauthc
                obtain ⟨h2, h3⟩ := pathEnd_eq_false_iff.mp hpec
                rcases hauthc with (rfl | rfl) | rfl
                · rfl
                · exact absurd rfl h2
                · exact absurd rfl h3
              refine ⟨t.takeWhile (fun c => !pathEnd c), ?_⟩
              rw [hpathRaw, hr2v, List.takeWhile_cons]
              simp [hcslash, pathEnd]
        unfold parsePathPart at h
        dsimp only at h
        split at h
        case _ t =>
          obtain rfl := Option.some.inj h
          exact ⟨hschemene, hschemeal, hhne, hhok, hpok, hpathsl, hpathok,
            fun c hc => by simpa using List.mem_takeWhile_imp hc⟩
        case _ f =>
          obtain rfl := Option.some.inj h
          exact ⟨hschemene, hschemeal, hhne, hhok, hpok, hpathsl, hpathok, by simp⟩
        case _ =>
          obtain rfl := Option.some.inj h
          exact ⟨hschemene, hschemeal, hhne, hhok, hpok, hpathsl, hpathok, by simp⟩
  case _ => exact absurd h (by simp)

theorem toList_mk (l : List Char) : (String.mk l).toList = l := rfl

/-! ### URL utilities from `src/utils/url.ts`

Each definition mirrors one exported function; JavaScript's try/catch around
`new URL` becomes a `match` on `parseChars`. -/

/-- Trailing-slash removal used by `normalizeUrl` (lines 175-177) and by
`shouldExcludeHierarchically` (lines 97-99): drop one trailing `/` from a
non-root path. -/
def strip1Slash (p : List Char) : List Char :=
  if p.getLast? = some '/' ∧ p ≠ ['/'] then p.dropLast else p

def normParts (u : UrlParts) : UrlParts :=
  { scheme := u.scheme
    host := lowerList u.host
    port :=
      match u.port with
      | some p => if isDefaultPort u.scheme p then none else some p
      | none => none
    path := strip1Slash u.path
    query := []
    frag := [] }

/-- `normalizeUrl` (url.ts lines 165-187): lowercase hostname, drop default
port, strip one trailing slash from non-root paths, drop query and hash;
malformed input is returned unchanged. -/
def normalizeUrl (url : String) : String :=
  match parseChars url.toList with
  | none => url
  | some u => String.mk (serializeChars (normParts u))

/-- First-occurrence search: remainder of the haystack after the first
occurrence of the needle, if any. -/
def dropAfterFirst (needle : List Char) : List Char → Option (List Char)
  | [] => if listStartsWith [] needle then some [] else none
  | c :: t =>
    if listStartsWith (c :: t) needle then some ((c :: t).drop needle.length)
    else dropAfterFirst needle t

/-- Unanchored matching of the glob regex built in `shouldExcludeUrl`: the
pattern's literal chunks (split on `*`) must occur in order in the target. -/
def containsInOrder : List (List Char) → List Char → Bool
  | [], _ => true
  | n :: ns, hay =>
    match dropAfterFirst n hay with
    | none => false
    | some rest => containsInOrder ns rest

/-- One iteration of the pattern loop in `shouldExcludeUrl` (url.ts lines
69-83): wildcard patterns compile to a regex (`*` becomes `.*`, all else
literal) tested against the lowercased pathname and full URL; plain patterns
are substring tests. -/
def matchesExcludePattern (pathname fullUrl : List Char) (pattern : String) : Bool :=
  let pl := lowerList pattern.toList
  if pl.contains '*' then
    containsInOrder (splitChar '*' pl) pathname || containsInOrder (splitChar '*' pl) fullUrl
  else
    listContainsSub pathname pl || listContainsSub fullUrl pl

/-- `shouldExcludeUrl` (url.ts lines 63-89). -/
def shouldExcludeUrl (url : String) (patterns : List String) : Bool :=
  match parseChars url.toList with
  | none => false
  | some u => patterns.any (matchesExcludePattern (lowerList u.path) (lowerList url.toList))

/-- Parent-path extraction in `shouldExcludeHierarchically` and
`extractParentPaths`: the effect of `replace(/\/?\*+$/, '')`. -/
def removeTrailingStars (pl : List Char) : List Char :=
  if pl.getLast? = some '*' then
    (match pl.reverse.dropWhile (fun c => c = '*') with
     | '/' :: r' => r'
     | r => r).reverse
  else pl

def ensureLeadingSlash (l : List Char) : List Char :=
  if listStartsWith l ['/'] then l else '/' :: l

/-- The pattern loop of `shouldExcludeHierarchically` (url.ts lines 101-134),
including its early `return false` when the pathname equals a wildcard
pattern's parent. -/
def hierLoop (pathname : List Char) : List String → Bool
  | [] => false
  | pat :: rest =>
    let pl := lowerList pat.toList
    if pl.contains '*' = false then
      if pathname = pl ∨ pathname = pl ++ ['/'] then true
      else hierLoop pathname rest
    else
      let par := ensureLeadingSlash (removeTrailingStars pl)
      if pathname = par ∨ pathname = par ++ ['/'] then false
      else if par = ['/'] then
        (if pathname ≠ ['/'] then true else hierLoop pathname rest)
      else if listStartsWith pathname (par ++ ['/']) then true
      else hierLoop pathname rest

/-- `shouldExcludeHierarchically` (url.ts lines 91-140). -/
def shouldExcludeHierarchically (url : String) (patterns : List String) : Bool :=
  match parseChars url.toList with
  | none => false
  | some u => hierLoop (strip1Slash (lowerList u.path)) patterns

/-- Normalized lowercased pathname of a parseable URL, as computed at the top
of `shouldExcludeHierarchically`. -/
def pathnameNorm (url : String) : Option (List Char) :=
  (parseChars url.toList).map (fun u => strip1Slash (lowerList u.path))

/-- `extractParentPaths` (url.ts lines 142-163). -/
def extractParentPaths (patterns : List String) : List String :=
  patterns.filterMap (fun pattern =>
    if pattern.toList.contains '*' = false then none
    else
      let par := ensureLeadingSlash (removeTrailingStars pattern.toList)
      if par = ['/'] then none else some (String.mk par))

theorem dropLast_cons_of_ne_nil {a : Char} {l : List Char} (h : l ≠ []) :
    (a :: l).dropLast = a :: l.dropLast := by
  cases l with
  | nil => exact absurd rfl h
  | cons b t => rfl

theorem strip1Slash_wf_path {p : List Char} (hsl : ∃ r, p = '/' :: r)
    (hok : ∀ c ∈ p, pathEnd c = false) :
    (∃ r, strip1Slash p = '/' :: r) ∧ (∀ c ∈ strip1Slash p, pathEnd c = false) := by
  obtain ⟨r, rfl⟩ := hsl
  unfold strip1Slash
  by_cases hc : ('/' :: r).getLast? = some '/' ∧ ('/' :: r) ≠ ['/']
  · rw [if_pos hc]
    have hrne : r ≠ [] := by
      intro hr
      exact hc.2 (by rw [hr])
    rw [dropLast_cons_of_ne_nil hrne]
    refine ⟨⟨r.dropLast, rfl⟩, ?_⟩
    intro c hcm
    rw [← dropLast_cons_of_ne_nil hrne] at hcm
    exact hok c (List.Sublist.subset (List.dropLast_sublist _) hcm)
  · rw [if_neg hc]
    exact ⟨⟨r, rfl⟩, hok⟩

theorem normParts_wf {u : UrlParts} (h : Wf u) : Wf (normParts u) := by
  obtain ⟨hsne, hsal, hhne, hhok, hpok, hpsl, hpath, hquery⟩ := h
  obtain ⟨hsl', hok'⟩ := strip1Slash_wf_path hpsl hpath
  refine ⟨hsne, hsal, ?_, ?_, ?_, hsl', hok', by simp [normParts]⟩
  · simpa [normParts, lowerList] using hhne
  · intro c hc
    simp only [normParts, lowerList, List.mem_map] at hc
    obtain ⟨c₀, hc₀, rfl⟩ := hc
    obtain ⟨f1, f2, f3, f4⟩ := hhok c₀ hc₀
    exact charLower_host_ok f1 f2 f3
  · intro p hp
    simp only [normParts] at hp
    rcases hv : u.port with - | p₀
    · rw [hv] at hp; simp at hp
    · rw [hv] at hp
      dsimp only at hp
      by_cases hd : isDefaultPort u.scheme p₀ = true
      · rw [if_pos hd] at hp; simp at hp
      · rw [if_neg hd] at hp
        obtain rfl : p₀ = p := by simpa using hp
        exact hpok _ hv

theorem strip1Slash_idem {p : List Char}
    (h : p.getLast? = some '/' → p.dropLast.getLast? = some '/' → p = ['/', '/']) :
    strip1Slash (strip1Slash p) = strip1Slash p := by
  by_cases c1 : p.getLast? = some '/' ∧ p ≠ ['/']
  · by_cases c2 : p.dropLast.getLast? = some '/'
    · have hp := h c1.1 c2
      subst hp
      rfl
    · have e1 : strip1Slash p = p.dropLast := by rw [strip1Slash, if_pos c1]
      rw [e1, strip1Slash, if_neg (fun hc => c2 hc.1)]
  · have h1 : strip1Slash p = p := by rw [strip1Slash, if_neg c1]
    rw [h1, h1]

theorem normParts_idem {u : UrlParts} (hwf : Wf u)
    (h : u.path.getLast? = some '/' → u.path.dropLast.getLast? = some '/' →
      u.path = ['/', '/']) :
    normParts (normParts u) = normParts u := by
  have hport : ∀ p, (normParts u).port = some p →
      isDefaultPort u.scheme p = false := fun p hp => ((normParts_wf hwf).port_ok p hp).2
  unfold normParts
  refine UrlParts.mk.injEq .. ▸ ⟨rfl, ?_, ?_, ?_, rfl, rfl⟩
  · exact lowerList_idem u.host
  · rcases hv : u.port with - | p₀
    · simp [normParts, hv]
    · by_cases hd : isDefaultPort u.scheme p₀ = true
      · simp [normParts, hv, hd]
      · simp [normParts, hv, hd]
  · exact strip1Slash_idem h

/-- C5 counterexample input: a path with two trailing slashes loses only one
slash per pass. -/
theorem normalizeUrl_double_slash_not_fixed :
    normalizeUrl (normalizeUrl "https://x.com/a//") ≠ normalizeUrl "https://x.com/a//" := by
  decide

/-- C5 (amended): normalization is idempotent on every parseable URL whose
path does not end in a double slash (other than the path `//` itself). -/
theorem normalizeUrl_idem (url : String) (u : UrlParts)
    (hparse : parseChars url.toList = some u)
    (hpath : u.path.getLast? = some '/' → u.path.dropLast.getLast? = some '/' →
      u.path = ['/', '/']) :
    normalizeUrl (normalizeUrl url) = normalizeUrl url := by
  have hwf := parse_wf hparse
  have h1 : normalizeUrl url = String.mk (serializeChars (normParts u)) := by
    rw [normalizeUrl, hparse]
  rw [h1]
  rw [normalizeUrl, toList_mk, parse_serialize (normParts_wf hwf)]
  dsimp only
  rw [normParts_idem hwf hpath]

/-- C5 witness: idempotence at a concrete single-trailing-slash URL. -/
theorem normalizeUrl_idem_witness :
    normalizeUrl (normalizeUrl "https://x.com/a/") = normalizeUrl "https://x.com/a/" :=
  normalizeUrl_idem "https://x.com/a/"
    ⟨"https".toList, "x.com".toList, none, "/a/".toList, [], []⟩
    (by decide) (by decide)

/-- C6: on every parseable URL, `normalizeUrl` produces a URL that parses to
the same scheme, the lowercased host, the port with defaults removed, the
path with one trailing slash stripped, and empty query and fragment; on
every unparseable input it returns the input unchanged (and, being a total
function, never throws). -/
theorem normalizeUrl_spec (url : String) :
    (parseChars url.toList = none → normalizeUrl url = url) ∧
    (∀ u, parseChars url.toList = some u →
      parseChars (normalizeUrl url).toList = some
        { scheme := u.scheme
          host := lowerList u.host
          port :=
            match u.port with
            | some p => if isDefaultPort u.scheme p then none else some p
            | none => none
          path := strip1Slash u.path
          query := []
          frag := [] }) := by
  constructor
  · intro h; rw [normalizeUrl, h]
  · intro u hu
    rw [normalizeUrl, hu]
    dsimp only
    rw [toList_mk]
    exact parse_serialize (normParts_wf (parse_wf hu))

/-- C6 witness: a concrete URL exercising host lowercasing, default-port
stripping, trailing-slash removal and query/fragment dropping. -/
theorem normalizeUrl_spec_witness :
    parseChars (normalizeUrl "http://EXample.com:80/a/?q=1#frag").toList = some
      { scheme := "http".toList, host := "example.com".toList, port := none,
        path := "/a".toList, query := [], frag := [] } :=
  (normalizeUrl_spec "http://EXample.com:80/a/?q=1#frag").2
    ⟨"http".toList, "example.com".toList, none, "/a/".toList, "q=1".toList, "frag".toList⟩
    (by decide)

/-- C10: because a wildcard-free pattern is tested by substring containment
and every string contains the empty string, an empty exclude pattern excludes
every parseable URL. -/
theorem shouldExcludeUrl_empty_pattern (url : String) (u : UrlParts)
    (patterns : List String)
    (hparse : parseChars url.toList = some u) (hmem : "" ∈ patterns) :
    shouldExcludeUrl url patterns = true := by
  rw [shouldExcludeUrl, hparse]
  dsimp only
  refine List.any_eq_true.mpr ⟨"", hmem, ?_⟩
  simp [matchesExcludePattern, listContainsSub_nil, lowerList]

/-- C10 witness: the empty pattern excludes a concrete well-formed URL. -/
theorem shouldExcludeUrl_empty_pattern_witness :
    shouldExcludeUrl "https://x.com/a" ["/admin", ""] = true :=
  shouldExcludeUrl_empty_pattern "https://x.com/a"
    ⟨"https".toList, "x.com".toList, none, "/a".toList, [], []⟩
    ["/admin", ""] (by decide) (by decide)

/-! ### Dynamic URL classification from `src/utils/url.ts` -/

structure UrlAnalysis where
  isDynamic : Bool
  pattern : Option String
  dynamicSegments : List String
deriving DecidableEq

/-- Path segments as computed by `pathname.split('/').filter(s => s.length > 0)`. -/
def pathSegments (path : List Char) : List (List Char) :=
  (splitChar '/' path).filter (fun s => s ≠ [])

/-- The UUID v4 shape `/^[0-9a-f]{8}-[0-9a-f]{4}-[0-9a-f]{4}-[0-9a-f]{4}-[0-9a-f]{12}$/i`. -/
def isUuidSeg (s : List Char) : Bool :=
  match splitChar '-' s with
  | [a, b, c, d, e] =>
    a.length = 8 && b.length = 4 && c.length = 4 && d.length = 4 && e.length = 12 &&
      (a ++ b ++ c ++ d ++ e).all isHexCh
  | _ => false

/-- The Mongo ObjectId shape `/^[0-9a-f]{24}$/i`. -/
def isObjectIdSeg (s : List Char) : Bool := s.length = 24 && s.all isHexCh

/-- The all-numeric shape `/^\d+$/`. -/
def isNumericSeg (s : List Char) : Bool := s ≠ [] && s.all isDigitCh

def isDynSeg (s : List Char) : Bool := isUuidSeg s || isObjectIdSeg s || isNumericSeg s

/-- Query-parameter list as produced by `URLSearchParams` iteration: split on
`&`, drop empty pairs, split each pair at the first `=` (percent-decoding and
plus-decoding are outside the model). -/
def parseQueryParams (query : List Char) : List (List Char × List Char) :=
  ((splitChar '&' query).filter (fun p => p ≠ [])).map (fun p =>
    (p.takeWhile (fun c => c ≠ '='),
     match p.dropWhile (fun c => c ≠ '=') with
     | _ :: v => v
     | [] => []))

/-- The query-parameter test at url.ts line 219: key contains `id`
(case-insensitively) and the value is numeric. -/
def isDynParam (kv : List Char × List Char) : Bool :=
  listContainsSub (lowerList kv.1) "id".toList && isNumericSeg kv.2

/-- Per-segment tagging in `extractUrlPattern` (url.ts lines 244-255), in the
source's check order: uuid, then objectId, then numeric. -/
def tagOfSeg (s : List Char) : List Char :=
  if isUuidSeg s then ":uuid".toList
  else if isObjectIdSeg s then ":objectId".toList
  else if isNumericSeg s then ":id".toList
  else s

/-- `extractUrlPattern` (url.ts lines 235-261). -/
def extractUrlPattern (url : String) : String :=
  match parseChars url.toList with
  | none => url
  | some u =>
    String.mk ('/' :: List.intercalate ['/'] ((pathSegments u.path).map tagOfSeg))

/-- `isDynamicUrl` (url.ts lines 201-233). -/
def isDynamicUrl (url : String) : UrlAnalysis :=
  match parseChars url.toList with
  | none => ⟨false, none, []⟩
  | some u =>
    let dyn := ((pathSegments u.path).filter isDynSeg).map String.mk ++
      ((parseQueryParams u.query).filter isDynParam).map
        (fun kv => String.mk (kv.1 ++ '=' :: kv.2))
    if dyn = [] then ⟨false, none, []⟩
    else ⟨true, some (extractUrlPattern url), dyn⟩

/-- C3: a parseable URL is reported dynamic exactly when some path segment is
UUID-shaped, ObjectId-shaped or all-numeric, or some query parameter has a
key containing `id` and an all-numeric value; and in that case the reported
pattern replaces each segment by its type tag in original order, keeping
non-dynamic segments verbatim. -/
theorem isDynamicUrl_spec (url : String) (u : UrlParts)
    (hparse : parseChars url.toList = some u) :
    ((isDynamicUrl url).isDynamic = true ↔
      (∃ s ∈ pathSegments u.path,
        isUuidSeg s = true ∨ isObjectIdSeg s = true ∨ isNumericSeg s = true) ∨
      (∃ kv ∈ parseQueryParams u.query,
        listContainsSub (lowerList kv.1) "id".toList = true ∧ isNumericSeg kv.2 = true)) ∧
    ((isDynamicUrl url).isDynamic = true →
      (isDynamicUrl url).pattern =
        some (String.mk ('/' :: List.intercalate ['/'] ((pathSegments u.path).map tagOfSeg)))) := by
  rw [isDynamicUrl, hparse]
  dsimp only
  set dyn := ((pathSegments u.path).filter isDynSeg).map String.mk ++
    ((parseQueryParams u.query).filter isDynParam).map
      (fun kv => String.mk (kv.1 ++ '=' :: kv.2)) with hdyn
  have hiff : dyn ≠ [] ↔
      (∃ s ∈ pathSegments u.path,
        isUuidSeg s = true ∨ isObjectIdSeg s = true ∨ isNumericSeg s = true) ∨
      (∃ kv ∈ parseQueryParams u.query,
        listContainsSub (lowerList kv.1) "id".toList = true ∧ isNumericSeg kv.2 = true) := by
    rw [hdyn]
    constructor
    · intro h
      rcases hsegs : (pathSegments u.path).filter isDynSeg with _ | ⟨s, ss⟩
      · rcases hpar : (parseQueryParams u.query).filter isDynParam with _ | ⟨kv, ks⟩
        · exact absurd (by rw [hsegs, hpar]; rfl) h
        · right
          have hmem : kv ∈ (parseQueryParams u.query).filter isDynParam := by
            rw [hpar]; simp
          have h1 := List.mem_filter.mp hmem
          exact ⟨kv, h1.1, by simpa [isDynParam] using h1.2⟩
      · left
        have hmem : s ∈ (pathSegments u.path).filter isDynSeg := by
          rw [hsegs]; simp
        have h1 := List.mem_filter.mp hmem
        exact ⟨s, h1.1, by simpa [isDynSeg, or_assoc] using h1.2⟩
    · rintro (⟨s, hs, hdyns⟩ | ⟨kv, hkv, hdynkv⟩) hnil <;>
        obtain ⟨h1, h2⟩ := List.append_eq_nil.mp hnil
      · have hmem : s ∈ (pathSegments u.path).filter isDynSeg :=
          List.mem_filter.mpr ⟨hs, by simpa [isDynSeg, or_assoc] using hdyns⟩
        rw [List.map_eq_nil_iff] at h1
        rw [h1] at hmem
        simp at hmem
      · have hmem : kv ∈ (parseQueryParams u.query).filter isDynParam :=
          List.mem_filter.mpr ⟨hkv, by simpa [isDynParam] using hdynkv⟩
        rw [List.map_eq_nil_iff] at h2
        rw [h2] at hmem
        simp at hmem
  constructor
  · by_cases hd : dyn = []
    · rw [if_pos hd]
      simp only [Bool.false_eq_true, false_iff]
      intro hcontra
      exact (hiff.mpr hcontra) hd
    · rw [if_neg hd]
      simpa using hiff.mp hd
  · by_cases hd : dyn = []
    · rw [if_pos hd]
      intro hcontra
      simp at hcontra
    · rw [if_neg hd]
      intro h2
      dsimp only
      rw [extractUrlPattern, hparse]

/-- C3 witness: `/product/123` is dynamic via its numeric segment and the
reported pattern is `/product/:id`. -/
theorem isDynamicUrl_spec_witness :
    (isDynamicUrl "https://x.com/product/123?ref=9").isDynamic = true ∧
    (isDynamicUrl "https://x.com/product/123?ref=9").pattern = some "/product/:id" := by
  have h := isDynamicUrl_spec "https://x.com/product/123?ref=9"
    ⟨"https".toList, "x.com".toList, none, "/product/123".toList, "ref=9".toList, []⟩
    (by decide)
  have hd := h.1.mpr (Or.inl ⟨"123".toList, by decide, by decide⟩)
  refine ⟨hd, ?_⟩
  rw [h.2 hd]
  decide

/-- C7 counterexample: with patterns `["/a/*", "/a/b/*"]` the URL
`https://x.com/a/b` is excluded even though its normalized pathname equals
the parent path of the wildcard pattern `/a/b/*` — the earlier pattern's
child check fires first, refuting the keep-parent guarantee as universally
quantified over pattern lists. -/
theorem shouldExcludeHierarchically_parent_not_kept :
    shouldExcludeHierarchically "https://x.com/a/b" ["/a/*", "/a/b/*"] = true ∧
    pathnameNorm "https://x.com/a/b" =
      some (ensureLeadingSlash (removeTrailingStars (lowerList ("/a/b/*").toList))) := by
  decide

/-- C7 (amended): the keep-parent/exclude-children semantics holds for a
single pattern: a wildcard pattern keeps the URL whose normalized pathname
equals the pattern's parent (with or without trailing slash), excludes
exactly the strict descendants (every non-root path for the root pattern),
and a wildcard-free pattern excludes exactly on pathname equality. -/
theorem shouldExcludeHierarchically_singleton (url : String) (pn : List Char)
    (pat : String) (hpn : pathnameNorm url = some pn) :
    (((lowerList pat.toList).contains '*') = false →
      (shouldExcludeHierarchically url [pat] = true ↔
        (pn = lowerList pat.toList ∨ pn = lowerList pat.toList ++ ['/']))) ∧
    (((lowerList pat.toList).contains '*') = true →
      (shouldExcludeHierarchically url [pat] = true ↔
        (¬(pn = ensureLeadingSlash (removeTrailingStars (lowerList pat.toList)) ∨
           pn = ensureLeadingSlash (removeTrailingStars (lowerList pat.toList)) ++ ['/']) ∧
         (if ensureLeadingSlash (removeTrailingStars (lowerList pat.toList)) = ['/']
          then pn ≠ ['/']
          else listStartsWith pn
            (ensureLeadingSlash (removeTrailingStars (lowerList pat.toList)) ++ ['/']) = true)))) := by
  rw [shouldExcludeHierarchically]
  rcases hp : parseChars url.toList with - | u
  · rw [pathnameNorm, hp] at hpn
    simp at hpn
  · rw [pathnameNorm, hp] at hpn
    obtain rfl : strip1Slash (lowerList u.path) = pn := by simpa using hpn
    dsimp only
    constructor
    · intro hstar
      simp only [hierLoop]
      rw [if_pos hstar]
      by_cases hc : strip1Slash (lowerList u.path) = lowerList pat.toList ∨
          strip1Slash (lowerList u.path) = lowerList pat.toList ++ ['/']
      · simp [hc]
      · simp [hc]
    · intro hstar
      simp only [hierLoop]
      rw [if_neg (by rw [hstar]; simp)]
      by_cases h1 : strip1Slash (lowerList u.path) =
          ensureLeadingSlash (removeTrailingStars (lowerList pat.toList)) ∨
          strip1Slash (lowerList u.path) =
          ensureLeadingSlash (removeTrailingStars (lowerList pat.toList)) ++ ['/']
      · rw [if_pos h1]
        simp only [Bool.false_eq_true, false_iff]
        rintro ⟨hno, -⟩
        exact hno h1
      · rw [if_neg h1]
        by_cases h2 : ensureLeadingSlash (removeTrailingStars (lowerList pat.toList)) = ['/']
        · rw [if_pos h2]
          by_cases h3 : strip1Slash (lowerList u.path) ≠ ['/']
          · rw [if_pos h3]
            exact ⟨fun _ => ⟨h1, by rw [if_pos h2]; exact h3⟩, fun _ => rfl⟩
          · rw [if_neg h3]
            simp only [Bool.false_eq_true, false_iff]
            rintro ⟨-, hcond⟩
            rw [if_pos h2] at hcond
            exact hcond (of_not_not h3)
        · rw [if_neg h2]
          by_cases h4 : listStartsWith (strip1Slash (lowerList u.path))
              (ensureLeadingSlash (removeTrailingStars (lowerList pat.toList)) ++ ['/']) = true
          · rw [if_pos h4]
            exact ⟨fun _ => ⟨h1, by rw [if_neg h2]; exact h4⟩, fun _ => rfl⟩
          · rw [if_neg h4]
            simp only [Bool.false_eq_true, false_iff]
            rintro ⟨-, hcond⟩
            rw [if_neg h2] at hcond
            exact h4 hcond

/-- C7 witness: for the single pattern `/products/*`, the parent `/products`
is kept and the child `/products/item-1` is excluded. -/
theorem shouldExcludeHierarchically_singleton_witness :
    shouldExcludeHierarchically "https://x.com/products/item-1" ["/products/*"] = true ∧
    shouldExcludeHierarchically "https://x.com/products" ["/products/*"] = false := by
  have h1 := (shouldExcludeHierarchically_singleton "https://x.com/products/item-1"
    ("/products/item-1".toList) "/products/*" (by decide)).2 (by decide)
  have h2 := (shouldExcludeHierarchically_singleton "https://x.com/products"
    ("/products".toList) "/products/*" (by decide)).2 (by decide)
  constructor
  · exact h1.mpr (by decide)
  · cases hv : shouldExcludeHierarchically "https://x.com/products" ["/products/*"]
    · rfl
    · exact absurd (h2.mp hv) (by decide)

/-! ### Seed resolution from `src/services/crawler.ts` (crawl, lines 468-515) -/

structure SitemapResult where
  urls : List String
  sitemapsProcessed : Nat
  errors : List String
deriving DecidableEq

def stripWww (h : List Char) : List Char :=
  if listStartsWith h ("www.".toList) then h.drop 4 else h

/-- `isSameDomain` (crawler.ts lines 876-885). -/
def isSameDomain (url : String) (base : UrlParts) : Bool :=
  match parseChars url.toList with
  | none => false
  | some u =>
    stripWww u.host = stripWww base.host ||
      listEndsWith (stripWww u.host) ('.' :: stripWww base.host)

/-- `isExcluded` (crawler.ts lines 869-871) delegates to `shouldExcludeUrl`. -/
def isExcluded (url : String) (patterns : List String) : Bool :=
  shouldExcludeUrl url patterns

/-- `filterUrls` (crawler.ts lines 862-864). -/
def filterUrls (urls : List String) (excludePatterns : List String) : List String :=
  urls.filter (fun url => !isExcluded url excludePatterns)

/-- JavaScript `URL.origin` of a parsed URL. -/
def originOf (u : UrlParts) : List Char :=
  u.scheme ++ ':' :: '/' :: '/' :: u.host ++ portPartOf u.port

/-- Model of `new URL(ref, baseUrl).toString()` restricted to the refs the
crawler builds: absolute URLs are taken as-is, root-relative paths are
resolved against the base origin. -/
def resolveRef (base : UrlParts) (ref : String) : String :=
  match parseChars ref.toList with
  | some _ => ref
  | none =>
    if listStartsWith ref.toList ['/'] then String.mk (originOf base ++ ref.toList)
    else ref

/-- Sitemap-derived portion of the seed frontier (crawler.ts lines 472-487). -/
def seedsFromSitemap (baseUrlStr : String) (base : UrlParts) (useSitemap : Bool)
    (sitemapResult : Option SitemapResult) (maxPages : Nat)
    (excludePatterns : List String) : List String :=
  if useSitemap then
    match sitemapResult with
    | some r =>
      if r.urls ≠ [] then
        (filterUrls
          (if r.urls.filter (fun u2 => isSameDomain u2 base) ≠ []
           then r.urls.filter (fun u2 => isSameDomain u2 base)
           else [baseUrlStr]) excludePatterns).take maxPages
      else [baseUrlStr]
    | none => [baseUrlStr]
  else [baseUrlStr]

/-- Auto-inclusion of hierarchical-exclude parent paths (crawler.ts lines
489-500): each parent is appended unless an existing seed normalizes to it. -/
def addParentSeeds (base : UrlParts) (hierarchicalExclude : List String)
    (seeds : List String) : List String :=
  ((extractParentPaths hierarchicalExclude).map (resolveRef base)).foldl
    (fun acc parentUrl =>
      if acc.any (fun u2 => normalizeUrl u2 = normalizeUrl parentUrl) then acc
      else acc ++ [parentUrl])
    seeds

/-- Prepending of user seed paths (crawler.ts lines 502-515): each seed path
not normalize-present in the frontier is collected, and the collected list is
prepended. -/
def addSeedPaths (base : UrlParts) (seedPaths : List String)
    (seeds : List String) : List String :=
  (seedPaths.foldl
    (fun acc sp =>
      if seeds.any (fun u2 => normalizeUrl u2 = normalizeUrl (resolveRef base sp))
      then acc
      else acc ++ [resolveRef base sp])
    []) ++ seeds

/-- Effect of `.catch(() => null)` on the sitemap fetch (crawler.ts 474-476). -/
def sitemapResultOf : Except String SitemapResult → Option SitemapResult
  | Except.ok r => some r
  | Except.error _ => none

/-- Seed resolution inside `crawl` (crawler.ts lines 468-515): default seed,
optional sitemap expansion (failure swallowed by `.catch(() => null)`),
same-domain and exclude filtering, truncation to `maxPages`, auto-included
hierarchical-exclude parent paths, and prepended user seed paths. Returns
`none` when the base URL itself does not parse (`new URL(opts.url)` throws
before any seed is produced). -/
def resolveSeedUrls (baseUrlStr : String) (useSitemap : Bool)
    (sitemapFetch : Except String SitemapResult) (maxPages : Nat)
    (excludePatterns hierarchicalExclude seedPaths : List String) :
    Option (List String) :=
  match parseChars baseUrlStr.toList with
  | none => none
  | some base =>
    some (addSeedPaths base seedPaths
      (addParentSeeds base hierarchicalExclude
        (seedsFromSitemap baseUrlStr base useSitemap
          (sitemapResultOf sitemapFetch) maxPages excludePatterns)))

/-- C8: when the sitemap fetch fails, the failure is swallowed and (with no
extra seed inputs configured) the frontier is exactly the base URL, for any
exclude patterns and page budget — the exception never propagates. -/
theorem resolveSeedUrls_sitemap_failure (baseUrlStr : String) (base : UrlParts)
    (err : String) (maxPages : Nat) (excludePatterns : List String)
    (hbase : parseChars baseUrlStr.toList = some base) :
    resolveSeedUrls baseUrlStr true (Except.error err) maxPages
      excludePatterns [] [] = some [baseUrlStr] := by
  rw [resolveSeedUrls, hbase]
  rfl

/-- C8 witness: concrete sitemap failure falls back to the base URL. -/
theorem resolveSeedUrls_sitemap_failure_witness :
    resolveSeedUrls "https://x.com/" true (Except.error "fetch failed") 100
      ["/admin/*"] [] [] = some ["https://x.com/"] :=
  resolveSeedUrls_sitemap_failure "https://x.com/"
    ⟨"https".toList, "x.com".toList, none, "/".toList, [], []⟩
    "fetch failed" 100 ["/admin/*"] (by decide)

theorem length_foldl_cond_append (g : List String → String → Bool)
    (f : String → String) :
    ∀ (l : List String) (acc : List String),
      (l.foldl (fun acc x => if g acc x then acc else acc ++ [f x]) acc).length ≤
        acc.length + l.length := by
  intro l
  induction l with
  | nil => intro acc; simp
  | cons x xs ih =>
    intro acc
    rw [List.foldl_cons]
    by_cases hg : g acc x = true
    · rw [if_pos hg]
      refine le_trans (ih acc) ?_
      simp only [List.length_cons]
      omega
    · rw [if_neg hg]
      refine le_trans (ih (acc ++ [f x])) ?_
      simp only [List.length_append, List.length_cons, List.length_nil]
      omega

theorem addParentSeeds_length (base : UrlParts) (hierarchicalExclude : List String)
    (seeds : List String) :
    (addParentSeeds base hierarchicalExclude seeds).length ≤
      seeds.length + (extractParentPaths hierarchicalExclude).length := by
  rw [addParentSeeds]
  refine le_trans (length_foldl_cond_append
    (fun acc parentUrl => acc.any (fun u2 => normalizeUrl u2 = normalizeUrl parentUrl))
    (fun x => x) _ _) ?_
  simp

theorem addSeedPaths_length (base : UrlParts) (seedPaths : List String)
    (seeds : List String) :
    (addSeedPaths base seedPaths seeds).length ≤ seeds.length + seedPaths.length := by
  rw [addSeedPaths, List.length_append]
  have h := length_foldl_cond_append
    (fun _ sp => seeds.any (fun u2 => normalizeUrl u2 = normalizeUrl (resolveRef base sp)))
    (resolveRef base) seedPaths []
  simp only [List.length_nil, Nat.zero_add] at h
  omega

theorem seedsFromSitemap_length (baseUrlStr : String) (base : UrlParts)
    (useSitemap : Bool) (sitemapResult : Option SitemapResult) (maxPages : Nat)
    (excludePatterns : List String) :
    (seedsFromSitemap baseUrlStr base useSitemap sitemapResult maxPages
      excludePatterns).length ≤ max maxPages 1 := by
  unfold seedsFromSitemap
  rcases useSitemap with - | -
  · simp only [Bool.false_eq_true, if_neg, List.length_singleton]
    exact Nat.le_max_right maxPages 1
  · rcases sitemapResult with - | r
    · simp only [if_pos, List.length_singleton]
      exact Nat.le_max_right maxPages 1
    · dsimp only
      by_cases hu : r.urls ≠ []
      · rw [if_pos rfl, if_pos hu]
        refine le_trans ?_ (Nat.le_max_left maxPages 1)
        simp only [List.length_take]
        exact Nat.min_le_left maxPages _
      · rw [if_pos rfl, if_neg hu]
        exact Nat.le_max_right maxPages 1

/-- C1 (amended): the frontier length is bounded by
`max maxPages 1 + number of wildcard hierarchical-exclude parents + number of
seed paths` — the sitemap-derived portion alone respects the page budget, and
each parent path or seed path adds at most one entry. -/
theorem resolveSeedUrls_length_bound (baseUrlStr : String) (useSitemap : Bool)
    (sitemapFetch : Except String SitemapResult) (maxPages : Nat)
    (excludePatterns hierarchicalExclude seedPaths : List String)
    (out : List String)
    (h : resolveSeedUrls baseUrlStr useSitemap sitemapFetch maxPages
      excludePatterns hierarchicalExclude seedPaths = some out) :
    out.length ≤
      max maxPages 1 + (extractParentPaths hierarchicalExclude).length +
        seedPaths.length := by
  unfold resolveSeedUrls at h
  rcases hb : parseChars baseUrlStr.toList with - | base
  · rw [hb] at h; simp at h
  rw [hb] at h
  dsimp only at h
  obtain rfl := Option.some.inj h
  refine le_trans (addSeedPaths_length ..) ?_
  have h1 := addParentSeeds_length base hierarchicalExclude
    (seedsFromSitemap baseUrlStr base useSitemap
      (sitemapResultOf sitemapFetch) maxPages excludePatterns)
  have h2 := seedsFromSitemap_length baseUrlStr base useSitemap
    (sitemapResultOf sitemapFetch) maxPages excludePatterns
  omega

/-- C1 witness: the bound instantiated at the counterexample's inputs. -/
theorem resolveSeedUrls_length_bound_witness :
    (["https://x.com/b", "https://x.com/a", "https://x.com/a/"] : List String).length ≤
      max 2 1 + (extractParentPaths []).length + (["/b"] : List String).length :=
  resolveSeedUrls_length_bound "https://x.com/" true
    (Except.ok ⟨["https://x.com/a", "https://x.com/a/"], 1, []⟩) 2 [] [] ["/b"]
    ["https://x.com/b", "https://x.com/a", "https://x.com/a/"] (by decide)

/-! ### URL hierarchy from `buildUrlHierarchy` (crawler.ts lines 891-934) -/

inductive URLHierarchyNode where
  | mk (segment : String) (path : String) (url : Option String)
       (children : List URLHierarchyNode)

def URLHierarchyNode.segment : URLHierarchyNode → String
  | ⟨s, _, _, _⟩ => s

def URLHierarchyNode.path : URLHierarchyNode → String
  | ⟨_, p, _, _⟩ => p

def URLHierarchyNode.url : URLHierarchyNode → Option String
  | ⟨_, _, u, _⟩ => u

def URLHierarchyNode.children : URLHierarchyNode → List URLHierarchyNode
  | ⟨_, _, _, cs⟩ => cs

/-- Folding one URL's path segments into the tree: find-or-create a child
keyed by exact segment under the current node (`children.find` returns the
first match; a missing child is pushed at the end), then attach the URL at
the leaf reached (crawler.ts lines 902-927). -/
def insertSegs (url : String) : List String → String → URLHierarchyNode → URLHierarchyNode
  | [], _, ⟨seg, p, _, cs⟩ => ⟨seg, p, some url, cs⟩
  | s :: rest, curPath, ⟨seg, p, u, cs⟩ =>
    let newPath := curPath ++ s ++ "/"
    ⟨seg, p, u,
      match cs.dropWhile (fun c => c.segment ≠ s) with
      | [] => cs.takeWhile (fun c => c.segment ≠ s) ++
          [insertSegs url rest newPath ⟨s, newPath, none, []⟩]
      | c :: cs' => cs.takeWhile (fun c => c.segment ≠ s) ++
          (insertSegs url rest newPath c :: cs')⟩

/-- `buildUrlHierarchy` (crawler.ts lines 891-934): hierarchically-excluded
URLs are filtered out of the visualization tree, the root carries the base
origin, and every remaining URL is folded in; unparseable URLs are skipped. -/
def buildUrlHierarchy (urls : List String) (baseUrl : UrlParts)
    (hierarchicalExclude : List String) : URLHierarchyNode :=
  (urls.filter (fun url => !shouldExcludeHierarchically url hierarchicalExclude)).foldl
    (fun acc url =>
      match parseChars url.toList with
      | some u => insertSegs url ((pathSegments u.path).map String.mk) "/" acc
      | none => acc)
    ⟨"", "/", some (String.mk (originOf baseUrl ++ ['/'])), []⟩

/-- C9: folding `['https://x.com/', 'https://x.com/a', 'https://x.com/a/b']`
yields a root with exactly one child `a`, which has exactly one child `b`,
and the node for `a` keeps its own `url` even though it has a child. -/
theorem buildUrlHierarchy_round_trip :
    buildUrlHierarchy ["https://x.com/", "https://x.com/a", "https://x.com/a/b"]
      ⟨"https".toList, "x.com".toList, none, "/".toList, [], []⟩ [] =
    ⟨"", "/", some "https://x.com/",
      [⟨"a", "/a/", some "https://x.com/a",
        [⟨"b", "/a/b/", some "https://x.com/a/b", []⟩]⟩]⟩ := by
  rfl

/-! ### Crawl loop model (crawler.ts `crawl`, lines 520-753)

The crawlee scheduler is modelled as an event-driven state machine: an event
is the terminal outcome of one dispatched request — `succeed` carries the
loaded URL and the internal links the extractor discovered on the page,
`fail` carries the error after retries. The request queue dedups by
crawlee's uniqueKey, modelled as exact string equality; `maxRequestsPerCrawl`
is not modelled (no claim depends on the page budget of the loop). Events
whose URL is not pending are ignored. -/

structure LinkRef where
  url : String
  isInternal : Bool
deriving DecidableEq

structure FailRec where
  url : String
  error : String
  attempts : Nat
deriving DecidableEq

structure RedirectRec where
  fromUrl : String
  toUrl : String
  status : Nat
deriving DecidableEq

structure SkipRec where
  url : String
  reason : String
deriving DecidableEq

/-- The shared mutable aggregate `CrawlState` (types/crawl.ts): four
append-only logs. -/
structure CrawlState where
  visited : List String
  failed : List FailRec
  redirects : List RedirectRec
  skipped : List SkipRec
deriving DecidableEq

structure SchedState where
  pending : List (String × Nat)
  handled : List String
  state : CrawlState
  seenPatterns : List String
deriving DecidableEq

structure CrawlConfig where
  maxDepth : Nat
  excludePatterns : List String
deriving DecidableEq

inductive CrawlEv where
  | succeed (url loadedUrl : String) (links : List LinkRef)
  | fail (url error : String) (retryCount : Nat)
deriving DecidableEq

/-- Link expansion in `requestHandler` (crawler.ts lines 702-724): filter to
internal non-excluded links, normalize, and apply first-pattern-wins dynamic
dedup. Returns the URLs to enqueue, the skip records appended, and the grown
seen-pattern set. -/
def processLinkStep (acc : List String × List SkipRec × List String)
    (link : LinkRef) : List String × List SkipRec × List String :=
  let normalized := normalizeUrl link.url
  let analysis := isDynamicUrl normalized
  match analysis.pattern with
  | some p =>
    if analysis.isDynamic && p ≠ "" then
      if acc.2.2.contains p then
        (acc.1, acc.2.1 ++ [⟨normalized, "dynamic:" ++ p⟩], acc.2.2)
      else
        (acc.1 ++ [normalized], acc.2.1, acc.2.2 ++ [p])
    else (acc.1 ++ [normalized], acc.2.1, acc.2.2)
  | none => (acc.1 ++ [normalized], acc.2.1, acc.2.2)

def processLinks (excludePatterns : List String) (links : List LinkRef)
    (seen : List String) : List String × List SkipRec × List String :=
  ((links.filter (fun l => l.isInternal)).filter
      (fun l => !isExcluded l.url excludePatterns)).foldl
    processLinkStep ([], [], seen)

/-- `context.enqueueLinks` with crawlee's request-queue dedup: a URL already
known (handled or pending) is not re-added. -/
def enqueueAll (depth : Nat) (urls : List String)
    (pending : List (String × Nat)) (handled : List String) : List (String × Nat) :=
  urls.foldl
    (fun pend u2 =>
      if handled.contains u2 || pend.any (fun q => q.1 = u2) then pend
      else pend ++ [(u2, depth)])
    pending

def findPending (pending : List (String × Nat)) (u : String) : Option Nat :=
  match pending.find? (fun q => q.1 = u) with
  | some q => some q.2
  | none => none

def removePending : List (String × Nat) → String → List (String × Nat)
  | [], _ => []
  | q :: rest, u2 => if q.1 = u2 then rest else q :: removePending rest u2

/-- One terminal event applied to the crawl state: `succeed` is
`requestHandler` (record redirect, push loadedUrl to visited, expand links if
below the depth budget), `fail` is `failedRequestHandler` (push the request
URL and attempt count to failed). -/
def crawlStep (cfg : CrawlConfig) (s : SchedState) (ev : CrawlEv) : SchedState :=
  match ev with
  | CrawlEv.succeed url loadedUrl links =>
    match findPending s.pending url with
    | none => s
    | some depth =>
      let pending1 := removePending s.pending url
      let handled1 := s.handled ++ [url]
      let redirects1 :=
        if loadedUrl ≠ url then s.state.redirects ++ [⟨url, loadedUrl, 301⟩]
        else s.state.redirects
      let visited1 := s.state.visited ++ [loadedUrl]
      if depth < cfg.maxDepth then
        let expanded := processLinks cfg.excludePatterns links s.seenPatterns
        { pending := enqueueAll (depth + 1) expanded.1 pending1 handled1
          handled := handled1
          state :=
            { visited := visited1
              failed := s.state.failed
              redirects := redirects1
              skipped := s.state.skipped ++ expanded.2.1 }
          seenPatterns := expanded.2.2 }
      else
        { pending := pending1
          handled := handled1
          state :=
            { visited := visited1
              failed := s.state.failed
              redirects := redirects1
              skipped := s.state.skipped }
          seenPatterns := s.seenPatterns }
  | CrawlEv.fail url err retryCount =>
    match findPending s.pending url with
    | none => s
    | some _ =>
      { pending := removePending s.pending url
        handled := s.handled ++ [url]
        state :=
          { visited := s.state.visited
            failed := s.state.failed ++ [⟨url, err, retryCount + 1⟩]
            redirects := s.state.redirects
            skipped := s.state.skipped }
        seenPatterns := s.seenPatterns }

/-- Exact-duplicate removal performed by crawlee when the seed list is added
to the request queue. -/
def dedupList (l : List String) : List String :=
  l.foldl (fun acc u2 => if acc.contains u2 then acc else acc ++ [u2]) []

def initSched (seeds : List String) : SchedState :=
  { pending := (dedupList seeds).map (fun u2 => (u2, 0))
    handled := []
    state := ⟨[], [], [], []⟩
    seenPatterns := [] }

def crawlRun (cfg : CrawlConfig) (s : SchedState) (evs : List CrawlEv) : SchedState :=
  evs.foldl (crawlStep cfg) s

/-- C2 counterexample: a page at `/a` redirects to `/b` (so `visited` records
the loaded URL `/b`), the link `/b` is enqueued as its own request and then
fails — the same normalized URL ends up in both `visited` and `failed`. -/
theorem crawl_visited_failed_overlap :
    normalizeUrl "https://x.com/b" ∈
      (crawlRun ⟨1, []⟩ (initSched ["https://x.com/a"])
        [CrawlEv.succeed "https://x.com/a" "https://x.com/b" [⟨"https://x.com/b", true⟩],
         CrawlEv.fail "https://x.com/b" "timeout" 0]).state.visited.map normalizeUrl ∧
    normalizeUrl "https://x.com/b" ∈
      (crawlRun ⟨1, []⟩ (initSched ["https://x.com/a"])
        [CrawlEv.succeed "https://x.com/a" "https://x.com/b" [⟨"https://x.com/b", true⟩],
         CrawlEv.fail "https://x.com/b" "timeout" 0]).state.failed.map
        (fun r => normalizeUrl r.url) := by
  decide

theorem removePending_map_fst : ∀ (pending : List (String × Nat)) (u : String),
    (removePending pending u).map Prod.fst = ((pending.map Prod.fst).erase u) := by
  intro pending u
  induction pending with
  | nil => rfl
  | cons q rest ih =>
    rw [removePending]
    by_cases hq : q.1 = u
    · rw [if_pos hq, List.map_cons, hq, List.erase_cons_head]
    · rw [if_neg hq, List.map_cons, List.map_cons,
        List.erase_cons_tail (by simpa using hq), ih]

theorem dedupList_nodup (l : List String) : (dedupList l).Nodup := by
  suffices h : ∀ acc : List String, acc.Nodup →
      (l.foldl (fun acc u2 => if acc.contains u2 then acc else acc ++ [u2]) acc).Nodup by
    exact h [] List.nodup_nil
  induction l with
  | nil => intro acc hacc; simpa using hacc
  | cons x xs ih =>
    intro acc hacc
    rw [List.foldl_cons]
    by_cases hc : acc.contains x = true
    · rw [if_pos hc]; exact ih acc hacc
    · rw [if_neg hc]
      refine ih _ ?_
      rw [List.nodup_append]
      refine ⟨hacc, List.nodup_singleton x, ?_⟩
      intro a ha hmem
      obtain rfl : a = x := by simpa using hmem
      exact hc (by simpa using ha)

theorem enqueueAll_nodup : ∀ (urls : List String) (pend : List (String × Nat))
    (handled : List String) (d : Nat),
    (handled ++ pend.map Prod.fst).Nodup →
    (handled ++ (enqueueAll d urls pend handled).map Prod.fst).Nodup := by
  intro urls
  induction urls with
  | nil => intro pend handled d h; simpa [enqueueAll] using h
  | cons u2 us ih =>
    intro pend handled d h
    rw [enqueueAll, List.foldl_cons]
    by_cases hc : (handled.contains u2 || pend.any (fun q => q.1 = u2)) = true
    · rw [if_pos hc]
      exact ih pend handled d h
    · rw [if_neg hc]
      refine ih _ handled d ?_
      simp only [Bool.or_eq_true, not_or, Bool.not_eq_true] at hc
      obtain ⟨hh, hp⟩ := hc
      rw [List.map_append, List.map_cons, List.map_nil, ← List.append_assoc]
      rw [List.nodup_append]
      refine ⟨h, List.nodup_singleton u2, ?_⟩
      intro a ha hmem
      obtain rfl : a = u2 := by simpa using hmem
      rcases List.mem_append.mp ha with ha | ha
      · have hcontains : handled.contains a = true := by simpa using ha
        rw [hcontains] at hh
        cases hh
      · obtain ⟨q, hq, hq2⟩ := List.mem_map.mp ha
        have := List.any_eq_false.mp hp q hq
        simp [hq2] at this

/-- Invariant backing the visited/failed disjointness: the queue (handled
plus pending) never holds a URL twice, every terminal record's URL was
handled, and no URL has two terminal records. -/
def DisjInv (s : SchedState) : Prop :=
  (s.handled ++ s.pending.map Prod.fst).Nodup ∧
  (∀ t ∈ s.state.visited ++ s.state.failed.map FailRec.url, t ∈ s.handled) ∧
  (s.state.visited ++ s.state.failed.map FailRec.url).Nodup

theorem findPending_mem {pending : List (String × Nat)} {u : String} {d : Nat}
    (h : findPending pending u = some d) : u ∈ pending.map Prod.fst := by
  rw [findPending] at h
  rcases hf : pending.find? (fun q => q.1 = u) with - | q
  · rw [hf] at h; simp at h
  · have hq := List.find?_some hf
    have hqm := List.mem_of_find?_eq_some hf
    simp only [decide_eq_true_eq] at hq
    exact List.mem_map.mpr ⟨q, hqm, hq⟩

theorem queue_perm_after_remove {handled : List String}
    {pending : List (String × Nat)} {u : String}
    (hmem : u ∈ pending.map Prod.fst) :
    ((handled ++ [u]) ++ (removePending pending u).map Prod.fst).Perm
      (handled ++ pending.map Prod.fst) := by
  rw [removePending_map_fst]
  have he : (handled ++ [u]) ++ ((pending.map Prod.fst).erase u) =
      handled ++ (u :: ((pending.map Prod.fst).erase u)) := by simp
  rw [he]
  exact List.Perm.append_left handled (List.perm_cons_erase hmem).symm

theorem DisjInv_step (cfg : CrawlConfig) {s : SchedState} (ev : CrawlEv)
    (hinv : DisjInv s)
    (hnr : ∀ u lu links, ev = CrawlEv.succeed u lu links → lu = u) :
    DisjInv (crawlStep cfg s ev) := by
  obtain ⟨h1, h2, h3⟩ := hinv
  rcases ev with ⟨url, lu, links⟩ | ⟨url, err, retryCount⟩
  · have hlu : url = lu := (hnr url lu links rfl).symm
    subst hlu
    rcases hf : findPending s.pending url with - | depth
    · simp only [crawlStep, hf]
      exact ⟨h1, h2, h3⟩
    · simp only [crawlStep, hf]
      have hmem := findPending_mem hf
      have hqueue := (@queue_perm_after_remove s.handled _ _ hmem).symm.nodup h1
      have hurlnh : url ∉ s.handled := by
        intro hcontra
        obtain ⟨-, -, hdisj⟩ := List.nodup_append.mp h1
        exact hdisj hcontra hmem
      have hterm2 : ∀ t ∈ (s.state.visited ++ [url]) ++ s.state.failed.map FailRec.url,
          t ∈ s.handled ++ [url] := by
        intro t ht
        rw [List.append_assoc] at ht
        rcases List.mem_append.mp ht with ht | ht
        · exact List.mem_append_left _ (h2 t (List.mem_append_left _ ht))
        · rcases List.mem_append.mp ht with ht | ht
          · exact List.mem_append_right _ ht
          · exact List.mem_append_left _ (h2 t (List.mem_append_right _ ht))
      have hterm3 : ((s.state.visited ++ [url]) ++
          s.state.failed.map FailRec.url).Nodup := by
        have hperm : ((s.state.visited ++ [url]) ++
            s.state.failed.map FailRec.url).Perm
            ((s.state.visited ++ s.state.failed.map FailRec.url) ++ [url]) := by
          rw [List.append_assoc, List.append_assoc]
          exact List.Perm.append_left _ List.perm_append_comm
        refine hperm.symm.nodup ?_
        rw [List.nodup_append]
        refine ⟨h3, List.nodup_singleton url, ?_⟩
        intro a ha hmem2
        obtain rfl : a = url := by simpa using hmem2
        exact hurlnh (h2 a ha)
      by_cases hd : depth < cfg.maxDepth
      · rw [if_pos hd]
        exact ⟨enqueueAll_nodup _ _ _ _ hqueue, hterm2, hterm3⟩
      · rw [if_neg hd]
        exact ⟨hqueue, hterm2, hterm3⟩
  · rcases hf : findPending s.pending url with - | depth
    · simp only [crawlStep, hf]
      exact ⟨h1, h2, h3⟩
    · simp only [crawlStep, hf]
      have hmem := findPending_mem hf
      have hqueue := (@queue_perm_after_remove s.handled _ _ hmem).symm.nodup h1
      have hurlnh : url ∉ s.handled := by
        intro hcontra
        obtain ⟨-, -, hdisj⟩ := List.nodup_append.mp h1
        exact hdisj hcontra hmem
      refine ⟨hqueue, ?_, ?_⟩
      · intro t ht
        simp only [List.map_append, List.map_cons, List.map_nil] at ht
        rw [← List.append_assoc] at ht
        rcases List.mem_append.mp ht with ht | ht
        · exact List.mem_append_left _ (h2 t ht)
        · exact List.mem_append_right _ (by simpa using ht)
      · simp only [List.map_append, List.map_cons, List.map_nil]
        rw [← List.append_assoc]
        rw [List.nodup_append]
        refine ⟨h3, by simp, ?_⟩
        intro a ha hmem2
        obtain rfl : a = FailRec.url ⟨url, err, retryCount + 1⟩ := by simpa using hmem2
        exact hurlnh (h2 a ha)

theorem DisjInv_run (cfg : CrawlConfig) (s : SchedState) (evs : List CrawlEv)
    (hinv : DisjInv s)
    (hnr : ∀ ev ∈ evs, ∀ u lu links, ev = CrawlEv.succeed u lu links → lu = u) :
    DisjInv (crawlRun cfg s evs) := by
  induction evs generalizing s with
  | nil => exact hinv
  | cons e es ih =>
    rw [crawlRun, List.foldl_cons]
    exact ih (crawlStep cfg s e)
      (DisjInv_step cfg e hinv (fun u lu links he => hnr e (by simp) u lu links he))
      (fun ev hev => hnr ev (by simp [hev]))

theorem DisjInv_init (seeds : List String) : DisjInv (initSched seeds) := by
  refine ⟨?_, ?_, ?_⟩
  · simp only [initSched, List.nil_append, List.map_map]
    have heq : (Prod.fst ∘ fun u2 => ((u2, 0) : String × Nat)) = id := rfl
    rw [heq, List.map_id]
    exact dedupList_nodup seeds
  · intro t ht
    simp [initSched] at ht
  · simp [initSched]

/-- C2 (amended): in every crawl run in which no fetch is redirected (each
success's loaded URL equals its request URL), no URL string appears in both
`visited` and `failed` — the scheduler hands each queued URL exactly one
terminal outcome. The guarantee is at exact-URL granularity: with redirects,
or with distinct raw URLs that normalize identically, the normalized form
can reach both logs (see the counterexample). -/
theorem crawl_visited_failed_disjoint (cfg : CrawlConfig) (seeds : List String)
    (evs : List CrawlEv)
    (hnr : ∀ ev ∈ evs, ∀ u lu links, ev = CrawlEv.succeed u lu links → lu = u)
    (u2 : String) :
    ¬(u2 ∈ (crawlRun cfg (initSched seeds) evs).state.visited ∧
      u2 ∈ (crawlRun cfg (initSched seeds) evs).state.failed.map FailRec.url) := by
  rintro ⟨hv, hf⟩
  obtain ⟨-, -, h3⟩ := DisjInv_run cfg (initSched seeds) evs (DisjInv_init seeds) hnr
  obtain ⟨-, -, hdisj⟩ := List.nodup_append.mp h3
  exact hdisj hv hf

/-- C2 witness: a concrete redirect-free one-page run. -/
theorem crawl_visited_failed_disjoint_witness :
    ¬("https://x.com/a" ∈ (crawlRun ⟨1, []⟩ (initSched ["https://x.com/a"])
        [CrawlEv.succeed "https://x.com/a" "https://x.com/a" []]).state.visited ∧
      "https://x.com/a" ∈ (crawlRun ⟨1, []⟩ (initSched ["https://x.com/a"])
        [CrawlEv.succeed "https://x.com/a" "https://x.com/a" []]).state.failed.map
        FailRec.url) :=
  crawl_visited_failed_disjoint ⟨1, []⟩ ["https://x.com/a"]
    [CrawlEv.succeed "https://x.com/a" "https://x.com/a" []]
    (by
      rintro ev hev u lu links he
      obtain rfl : ev = CrawlEv.succeed "https://x.com/a" "https://x.com/a" [] := by
        simpa using hev
      injection he with h1 h2 h3
      rw [← h2]
      exact h1)
    "https://x.com/a"

theorem processLinkStep_facts {nu p : String}
    (hdyn : (isDynamicUrl nu).isDynamic = true)
    (hpat : (isDynamicUrl nu).pattern = some p)
    (hpne : p ≠ "")
    (acc : List String × List SkipRec × List String) (link : LinkRef)
    (hp : p ∈ acc.2.2) :
    p ∈ (processLinkStep acc link).2.2 ∧
    (nu ∉ acc.1 → nu ∉ (processLinkStep acc link).1) ∧
    (∀ x ∈ acc.2.1, x ∈ (processLinkStep acc link).2.1) ∧
    (normalizeUrl link.url = nu →
      (⟨nu, "dynamic:" ++ p⟩ : SkipRec) ∈ (processLinkStep acc link).2.1) := by
  rw [processLinkStep]
  by_cases heq : normalizeUrl link.url = nu
  · rw [heq, hpat]
    dsimp only
    rw [if_pos (by simp [hdyn, hpne])]
    rw [if_pos (by simpa using hp)]
    exact ⟨hp, fun h => h, fun x hx => List.mem_append_left _ hx,
      fun _ => List.mem_append_right _ (by simp)⟩
  · rcases hpt : (isDynamicUrl (normalizeUrl link.url)).pattern with - | q
    · dsimp only
      refine ⟨hp, ?_, fun x hx => hx, fun hc => absurd hc heq⟩
      intro h hmem
      rcases List.mem_append.mp hmem with hmem | hmem
      · exact h hmem
      · have hsy : nu = normalizeUrl link.url := by simpa using hmem
        exact heq hsy.symm
    · dsimp only
      by_cases hcond : ((isDynamicUrl (normalizeUrl link.url)).isDynamic && q ≠ "") = true
      · rw [if_pos hcond]
        by_cases hseenq : acc.2.2.contains q = true
        · rw [if_pos hseenq]
          exact ⟨hp, fun h => h, fun x hx => List.mem_append_left _ hx,
            fun hc => absurd hc heq⟩
        · rw [if_neg hseenq]
          refine ⟨List.mem_append_left _ hp, ?_, fun x hx => hx,
            fun hc => absurd hc heq⟩
          intro h hmem
          rcases List.mem_append.mp hmem with hmem | hmem
          · exact h hmem
          · have hsy : nu = normalizeUrl link.url := by simpa using hmem
            exact heq hsy.symm
      · rw [if_neg hcond]
        refine ⟨hp, ?_, fun x hx => hx, fun hc => absurd hc heq⟩
        intro h hmem
        rcases List.mem_append.mp hmem with hmem | hmem
        · exact h hmem
        · have hsy : nu = normalizeUrl link.url := by simpa using hmem
          exact heq hsy.symm

theorem processFold_facts {nu p : String}
    (hdyn : (isDynamicUrl nu).isDynamic = true)
    (hpat : (isDynamicUrl nu).pattern = some p)
    (hpne : p ≠ "") :
    ∀ (ls : List LinkRef) (acc : List String × List SkipRec × List String),
      p ∈ acc.2.2 →
      p ∈ (ls.foldl processLinkStep acc).2.2 ∧
      (nu ∉ acc.1 → nu ∉ (ls.foldl processLinkStep acc).1) ∧
      (∀ x ∈ acc.2.1, x ∈ (ls.foldl processLinkStep acc).2.1) ∧
      (∀ l' ∈ ls, normalizeUrl l'.url = nu →
        (⟨nu, "dynamic:" ++ p⟩ : SkipRec) ∈ (ls.foldl processLinkStep acc).2.1) := by
  intro ls
  induction ls with
  | nil =>
    intro acc hp
    exact ⟨hp, fun h => h, fun x hx => hx, by simp⟩
  | cons l' ls' ih =>
    intro acc hp
    rw [List.foldl_cons]
    obtain ⟨sf1, sf2, sf3, sf4⟩ := processLinkStep_facts hdyn hpat hpne acc l' hp
    obtain ⟨ih1, ih2, ih3, ih4⟩ := ih (processLinkStep acc l') sf1
    refine ⟨ih1, fun h => ih2 (sf2 h), fun x hx => ih3 x (sf3 x hx), ?_⟩
    rintro l'' hl'' hnorm
    rcases List.mem_cons.mp hl'' with rfl | hl''
    · exact ih3 _ (sf4 hnorm)
    · exact ih4 l'' hl'' hnorm

theorem enqueueAll_mem_fst : ∀ (urls : List String) (pend : List (String × Nat))
    (handled : List String) (d : Nat) (x : String),
    x ∈ (enqueueAll d urls pend handled).map Prod.fst →
    x ∈ pend.map Prod.fst ∨ x ∈ urls := by
  intro urls
  induction urls with
  | nil => intro pend handled d x h; exact Or.inl (by simpa [enqueueAll] using h)
  | cons u2 us ih =>
    intro pend handled d x h
    rw [enqueueAll, List.foldl_cons] at h
    by_cases hc : (handled.contains u2 || pend.any (fun q => q.1 = u2)) = true
    · rw [if_pos hc] at h
      rcases ih pend handled d x h with hx | hx
      · exact Or.inl hx
      · exact Or.inr (List.mem_cons_of_mem _ hx)
    · rw [if_neg hc] at h
      rcases ih _ handled d x h with hx | hx
      · rw [List.map_append] at hx
        rcases List.mem_append.mp hx with hx | hx
        · exact Or.inl hx
        · have hxu : x = u2 := by simpa using hx
          exact Or.inr (hxu ▸ List.mem_cons_self _ _)
      · exact Or.inr (List.mem_cons_of_mem _ hx)

/-- Invariant for the dynamic-dedup claim: the pattern stays seen, and the
skipped URL is neither pending nor visited. -/
def AvoidInv (nu p : String) (t : SchedState) : Prop :=
  p ∈ t.seenPatterns ∧ nu ∉ t.pending.map Prod.fst ∧ nu ∉ t.state.visited

theorem AvoidInv_step (cfg : CrawlConfig) {nu p : String}
    (hdyn : (isDynamicUrl nu).isDynamic = true)
    (hpat : (isDynamicUrl nu).pattern = some p)
    (hpne : p ≠ "")
    {t : SchedState} (ev : CrawlEv) (hQ : AvoidInv nu p t)
    (hnr : ∀ u lu links, ev = CrawlEv.succeed u lu links → lu = u) :
    AvoidInv nu p (crawlStep cfg t ev) := by
  obtain ⟨q1, q2, q3⟩ := hQ
  rcases ev with ⟨url, lu, links⟩ | ⟨url, err, retryCount⟩
  · have hlu : url = lu := (hnr url lu links rfl).symm
    subst hlu
    rcases hf : findPending t.pending url with - | depth
    · simp only [crawlStep, hf]
      exact ⟨q1, q2, q3⟩
    · simp only [crawlStep, hf]
      have hmem := findPending_mem hf
      have hne : url ≠ nu := fun hcontra => q2 (hcontra ▸ hmem)
      have hpend1 : nu ∉ (removePending t.pending url).map Prod.fst := by
        rw [removePending_map_fst]
        intro hcontra
        exact q2 (List.erase_subset _ _ hcontra)
      have hvis1 : nu ∉ t.state.visited ++ [url] := by
        intro hcontra
        rcases List.mem_append.mp hcontra with hcontra | hcontra
        · exact q3 hcontra
        · have hsy : nu = url := by simpa using hcontra
          exact hne hsy.symm
      by_cases hd : depth < cfg.maxDepth
      · rw [if_pos hd]
        obtain ⟨f1, f2, -, -⟩ := processFold_facts hdyn hpat hpne
          ((links.filter (fun l => l.isInternal)).filter
            (fun l => !isExcluded l.url cfg.excludePatterns)) ([], [], t.seenPatterns) q1
        refine ⟨f1, ?_, hvis1⟩
        intro hcontra
        rcases enqueueAll_mem_fst _ _ _ _ _ hcontra with hx | hx
        · exact hpend1 hx
        · exact absurd hx (f2 (List.not_mem_nil nu))
      · rw [if_neg hd]
        exact ⟨q1, hpend1, hvis1⟩
  · rcases hf : findPending t.pending url with - | depth
    · simp only [crawlStep, hf]
      exact ⟨q1, q2, q3⟩
    · simp only [crawlStep, hf]
      refine ⟨q1, ?_, q3⟩
      rw [removePending_map_fst]
      intro hcontra
      exact q2 (List.erase_subset _ _ hcontra)

theorem skipped_mono_step (cfg : CrawlConfig) (t : SchedState) (ev : CrawlEv)
    {x : SkipRec} (hx : x ∈ t.state.skipped) :
    x ∈ (crawlStep cfg t ev).state.skipped := by
  rcases ev with ⟨url, lu, links⟩ | ⟨url, err, retryCount⟩
  · rcases hf : findPending t.pending url with - | depth
    · simp only [crawlStep, hf]
      exact hx
    · simp only [crawlStep, hf]
      by_cases hd : depth < cfg.maxDepth
      · rw [if_pos hd]
        exact List.mem_append_left _ hx
      · rw [if_neg hd]
        exact hx
  · rcases hf : findPending t.pending url with - | depth
    · simp only [crawlStep, hf]
      exact hx
    · simp only [crawlStep, hf]
      exact hx

theorem crawlRun_preserves (cfg : CrawlConfig) {nu p : String}
    (hdyn : (isDynamicUrl nu).isDynamic = true)
    (hpat : (isDynamicUrl nu).pattern = some p)
    (hpne : p ≠ "") :
    ∀ (evs : List CrawlEv) (t : SchedState), AvoidInv nu p t →
    (∀ ev ∈ evs, ∀ u lu links, ev = CrawlEv.succeed u lu links → lu = u) →
    ∀ {x : SkipRec}, x ∈ t.state.skipped →
    AvoidInv nu p (crawlRun cfg t evs) ∧ x ∈ (crawlRun cfg t evs).state.skipped := by
  intro evs
  induction evs with
  | nil => intro t hQ hnr x hx; exact ⟨hQ, hx⟩
  | cons e es ih =>
    intro t hQ hnr x hx
    rw [crawlRun, List.foldl_cons]
    exact ih (crawlStep cfg t e)
      (AvoidInv_step cfg hdyn hpat hpne e hQ
        (fun u lu links he => hnr e (by simp) u lu links he))
      (fun ev hev => hnr ev (by simp [hev]))
      (skipped_mono_step cfg t e hx)

/-- C4: during frontier expansion of a page below the depth budget, an
internal, non-excluded link whose normalized URL classifies to an
already-seen dynamic pattern is recorded in `skipped` with reason
`dynamic:<pattern>`, is never enqueued, and — over any continuation of the
run without cross-URL redirects — never appears in `visited`. -/
theorem dynamic_dedup (cfg : CrawlConfig) (s : SchedState)
    (url lu : String) (links : List LinkRef) (l : LinkRef) (p : String) (d : Nat)
    (evs : List CrawlEv)
    (hdyn : (isDynamicUrl (normalizeUrl l.url)).isDynamic = true)
    (hpat : (isDynamicUrl (normalizeUrl l.url)).pattern = some p)
    (hpne : p ≠ "")
    (hseen : p ∈ s.seenPatterns)
    (hfind : findPending s.pending url = some d)
    (hdepth : d < cfg.maxDepth)
    (hl : l ∈ links) (hint : l.isInternal = true)
    (hexcl : isExcluded l.url cfg.excludePatterns = false)
    (hnp : normalizeUrl l.url ∉ s.pending.map Prod.fst)
    (hnv : normalizeUrl l.url ∉ s.state.visited)
    (hlu : lu = url)
    (hnr : ∀ ev ∈ evs, ∀ u' lu' links', ev = CrawlEv.succeed u' lu' links' → lu' = u') :
    (⟨normalizeUrl l.url, "dynamic:" ++ p⟩ : SkipRec) ∈
      (crawlRun cfg (crawlStep cfg s (CrawlEv.succeed url lu links)) evs).state.skipped ∧
    normalizeUrl l.url ∉
      (crawlRun cfg (crawlStep cfg s (CrawlEv.succeed url lu links)) evs).state.visited ∧
    normalizeUrl l.url ∉
      (crawlRun cfg (crawlStep cfg s
        (CrawlEv.succeed url lu links)) evs).pending.map Prod.fst := by
  subst hlu
  have hfiltermem : l ∈ (links.filter (fun l => l.isInternal)).filter
      (fun l => !isExcluded l.url cfg.excludePatterns) :=
    List.mem_filter.mpr ⟨List.mem_filter.mpr ⟨hl, hint⟩, by simp [hexcl]⟩
  obtain ⟨f1, f2, -, f4⟩ := processFold_facts hdyn hpat hpne
    ((links.filter (fun l => l.isInternal)).filter
      (fun l => !isExcluded l.url cfg.excludePatterns))
    ([], [], s.seenPatterns) hseen
  have hrec1 : (⟨normalizeUrl l.url, "dynamic:" ++ p⟩ : SkipRec) ∈
      (crawlStep cfg s (CrawlEv.succeed lu lu links)).state.skipped := by
    simp only [crawlStep, hfind]
    rw [if_pos hdepth]
    simp only [processLinks]
    exact List.mem_append_right _ (f4 l hfiltermem rfl)
  have hQ1 : AvoidInv (normalizeUrl l.url) p
      (crawlStep cfg s (CrawlEv.succeed lu lu links)) :=
    AvoidInv_step cfg hdyn hpat hpne _ ⟨hseen, hnp, hnv⟩
      (by
        intro u' lu' links' he
        injection he with h1 h2 h3
        rw [← h2]
        exact h1)
  obtain ⟨⟨-, hp2, hp3⟩, hskip⟩ :=
    crawlRun_preserves cfg hdyn hpat hpne evs _ hQ1 hnr hrec1
  exact ⟨hskip, hp3, hp2⟩

/-- C4 witness: with pattern `/product/:id` already seen, expanding a page
that links to `/product/456` records the skip and never visits it. -/
theorem dynamic_dedup_witness :
    (⟨"https://x.com/product/456", "dynamic:/product/:id"⟩ : SkipRec) ∈
      (crawlRun ⟨1, []⟩ (crawlStep ⟨1, []⟩
        ⟨[("https://x.com/page", 0)], [], ⟨[], [], [], []⟩, ["/product/:id"]⟩
        (CrawlEv.succeed "https://x.com/page" "https://x.com/page"
          [⟨"https://x.com/product/456", true⟩])) []).state.skipped ∧
    "https://x.com/product/456" ∉
      (crawlRun ⟨1, []⟩ (crawlStep ⟨1, []⟩
        ⟨[("https://x.com/page", 0)], [], ⟨[], [], [], []⟩, ["/product/:id"]⟩
        (CrawlEv.succeed "https://x.com/page" "https://x.com/page"
          [⟨"https://x.com/product/456", true⟩])) []).state.visited ∧
    "https://x.com/product/456" ∉
      (crawlRun ⟨1, []⟩ (crawlStep ⟨1, []⟩
        ⟨[("https://x.com/page", 0)], [], ⟨[], [], [], []⟩, ["/product/:id"]⟩
        (CrawlEv.succeed "https://x.com/page" "https://x.com/page"
          [⟨"https://x.com/product/456", true⟩])) []).pending.map Prod.fst :=
  dynamic_dedup ⟨1, []⟩
    ⟨[("https://x.com/page", 0)], [], ⟨[], [], [], []⟩, ["/product/:id"]⟩
    "https://x.com/page" "https://x.com/page"
    [⟨"https://x.com/product/456", true⟩] ⟨"https://x.com/product/456", true⟩
    "/product/:id" 0 []
    (by decide) (by decide) (by decide) (by decide) (by decide) (by decide)
    (by decide) (by decide) (by decide) (by decide) (by decide) rfl (by simp)

/-- C1 counterexample: with `maxPages = 2`, a sitemap carrying a
normalize-duplicate pair and one seed path, the frontier has length 3 and two
entries that normalize identically — both halves of the guarantee fail. -/
theorem resolveSeedUrls_budget_dup_violation :
    resolveSeedUrls "https://x.com/" true
      (Except.ok ⟨["https://x.com/a", "https://x.com/a/"], 1, []⟩) 2 [] [] ["/b"] =
      some ["https://x.com/b", "https://x.com/a", "https://x.com/a/"] ∧
    ¬((["https://x.com/b", "https://x.com/a", "https://x.com/a/"] : List String).length ≤ 2 ∧
      (["https://x.com/b", "https://x.com/a", "https://x.com/a/"].map normalizeUrl).Nodup) := by
  constructor
  · decide
  · decide
